import Mathlib

/-!
slog-discord: a Discord webhook handler for Go's log/slog.

A shallow embedding of `handler.go` and `option.go` of betrayy/slog-discord and of the
two builders of its examples, followed by theorems about the embedded code. The
functions of the dependencies those files call (`log/slog`, `samber/slog-common`,
`disgoorg/disgo`) are not part of the repository; they are embedded from the libraries'
own sources, each under the name it has there.

Conventions of the embedding:

* Go `int`, `slog.Level`, `time.Duration` and `time.Time` are `Int`; no arithmetic on them
  is performed by the embedded code apart from `Level.String`, which cannot overflow.
* A `*DiscordHandler` is an index into `Mem.objs`; a `[]string` is a slice header
  (`StrSlice`) over a backing array held in `Mem.arrays`, so that `append` writes in
  place when capacity allows, as in Go.
* Calls on collaborators (the embed builder, the webhook client, the secondary handler)
  are recorded as `Event`s, in the order the code makes them.
* A run-time panic (calling a nil function value, a method on a nil interface, a nil
  pointer dereference) is recorded explicitly.
* `Value` holds the values whose rendering to text always returns. A value of kind Any
  that holds something is rendered by the held value's own code, which can panic; the
  namespace `Raw` has these values and, over them, the path of `logDiscord` through the
  default builder, with the panic of a rendering or of a builder recorded as `none`.
-/

namespace SlogDiscord

/-! ## log/slog: levels, values, attributes, records -/

/-- Go `slog.Level` (an `int`). -/
abbrev Level := Int

/-- Go `time.Time`, as an instant. -/
abbrev Time := Int

/-- Go `time.Duration`, in nanoseconds. -/
abbrev Duration := Int

/-- Go `context.Context`, as an identifier: the handler only passes it on. -/
abbrev Context := Nat

def LevelDebug : Level := -4
def LevelInfo : Level := 0
def LevelWarn : Level := 4
def LevelError : Level := 8

/-- The local `str` of `slog.Level.String`: the base name when `val` is 0, else
`fmt.Sprintf("%s%+d", base, val)`. -/
def Level.str (base : String) (val : Int) : String :=
  if val = 0 then base
  else if 0 < val then base ++ "+" ++ toString val
  else base ++ toString val

/-- Go `slog.Level.String`. -/
def Level.String (l : Level) : String :=
  if l < LevelInfo then Level.str "DEBUG" (l - LevelDebug)
  else if l < LevelWarn then Level.str "INFO" (l - LevelInfo)
  else if l < LevelError then Level.str "WARN" (l - LevelWarn)
  else Level.str "ERROR" (l - LevelError)

/-- A Go `error`: made by `errors.New`, or wrapping a cause through `fmt.Errorf` with `%w`. -/
inductive GoError where
  | new (msg : String)
  | wrap (msg : String) (cause : GoError)
deriving DecidableEq, Repr

mutual
/-- Go `slog.Value`, the kinds whose rendering always returns. `zero` is `slog.Value{}`
(kind Any holding nil); `group` is kind Group. The kinds Uint64, Float64, Duration and Time
are non-group, non-zero values: every function embedded here treats them as it treats
`int64` and `bool`, up to the text they render to. A value of kind Any or LogValuer that
holds something is not among these: rendering it runs the held value's own code, which
can panic; `Raw.Value` below has it. -/
inductive Value where
  | zero
  | string (s : String)
  | int64 (i : Int)
  | bool (b : Bool)
  | group (as : List Attr)
/-- Go `slog.Attr`: a key and a value. -/
inductive Attr where
  | mk (Key : String) (Value : Value)
end

/-- Field `Key` of `slog.Attr`. -/
def Attr.Key : Attr → String
  | .mk k _ => k

/-- Field `Value` of `slog.Attr`. -/
def Attr.Value : Attr → Value
  | .mk _ v => v

/-- Whether `v.Kind() == slog.KindGroup`. -/
def Value.isGroup : Value → Bool
  | .group _ => true
  | _ => false

/-- Go `slog.Value.Group`, on a value of kind Group (empty for the other kinds, where the
code never calls it). -/
def Value.Group : Value → List Attr
  | .group as => as
  | _ => []

/-- Go `v.Equal(slog.Value{})`: kinds are compared first, so only the zero value is equal. -/
def Value.isZero : Value → Bool
  | .zero => true
  | _ => false

/-- Go `slog.Value.isEmptyGroup`: kind Group with no members. -/
def Value.isEmptyGroup : Value → Bool
  | .group [] => true
  | _ => false

/-- Go `slog.GroupValue`: a group value of the given attributes, empty groups removed. -/
def GroupValue (as : List Attr) : Value :=
  .group (as.filter (fun a => !a.Value.isEmptyGroup))

/-- Go `slog.Group(key, attrs...)`. -/
def Group (key : String) (as : List Attr) : Attr :=
  .mk key (GroupValue as)

mutual
/-- Go `slog.Value.String`: like `fmt.Sprint` of the value; a group prints its
attributes between brackets, separated by blanks. -/
def Value.String : Value → String
  | .zero => "<nil>"
  | .string s => s
  | .int64 i => toString i
  | .bool b => if b then "true" else "false"
  | .group as => "[" ++ " ".intercalate (attrStrings as) ++ "]"
/-- Go `slog.Attr.String`, `key=value`, of each attribute of a list. -/
def attrStrings : List Attr → List String
  | [] => []
  | .mk key val :: rest => (key ++ "=" ++ Value.String val) :: attrStrings rest
end

/-- Go `slog.Record`, with the attributes `Record.Attrs` iterates over. -/
structure Record where
  Time : Time
  Message : String
  Level : Level
  attrs : List Attr

/-! ## disgo: embeds and the webhook client -/

/-- Go `discord.EmbedField`; `Inline` is a `*bool`. -/
structure EmbedField where
  Name : String
  Value : String
  Inline : Option Bool
deriving DecidableEq, Repr

/-- Go `discord.Embed`, the fields this package sets; `Timestamp` is a `*time.Time`. -/
structure Embed where
  Title : String
  Description : String
  Timestamp : Option Time
  Color : Int
  Fields : List EmbedField
deriving DecidableEq, Repr

/-- Go `discord.EmbedBuilder`: it embeds the `discord.Embed` under construction. -/
abbrev EmbedBuilder := Embed

/-- Go `discord.NewEmbedBuilder()`: every field zero. -/
def NewEmbedBuilder : EmbedBuilder :=
  { Title := "", Description := "", Timestamp := none, Color := 0, Fields := [] }

def EmbedBuilder.SetTitle (eb : EmbedBuilder) (title : String) : EmbedBuilder :=
  { eb with Title := title }

def EmbedBuilder.SetDescription (eb : EmbedBuilder) (description : String) : EmbedBuilder :=
  { eb with Description := description }

def EmbedBuilder.SetTimestamp (eb : EmbedBuilder) (time : Time) : EmbedBuilder :=
  { eb with Timestamp := some time }

def EmbedBuilder.SetColor (eb : EmbedBuilder) (color : Int) : EmbedBuilder :=
  { eb with Color := color }

/-- Go `EmbedBuilder.AddField`: appends one field. -/
def EmbedBuilder.AddField (eb : EmbedBuilder) (name value : String) (inline : Bool) :
    EmbedBuilder :=
  { eb with Fields := eb.Fields ++ [{ Name := name, Value := value, Inline := some inline }] }

/-- Go `EmbedBuilder.Build`. -/
def EmbedBuilder.Build (eb : EmbedBuilder) : Embed := eb

/-- Go `webhook.Client`, a non-nil one: `CreateEmbeds` answers with its error (none is nil). -/
structure Client where
  CreateEmbeds : List Embed → Option GoError

/-! ## samber/slog-common: the attribute helpers the handler calls -/

/-- Go `slogcommon.ValueToString`, on the values of `Value`: a string renders as itself,
an integer and a boolean as `fmt` prints them, nil as `<nil>`, and a group, which the
handler never passes (`populateEmbedFields` descends into groups instead), as `fmt`
prints its attributes. On these values it always returns; `Raw.ValueToString` is the
function on the values on which it can panic. -/
def ValueToString : Value → String
  | .zero => "<nil>"
  | .string s => s
  | .int64 i => toString i
  | .bool b => if b then "true" else "false"
  | .group as => Value.String (.group as)

/-- One step of `uniqByLast`: an item whose key was seen replaces the earlier item in
its place, a new key is appended. -/
def uniqStep (result : List Attr) (item : Attr) : List Attr :=
  match result.findIdx? (fun r => r.Key == item.Key) with
  | some index => result.set index item
  | none => result ++ [item]

/-- Go `slogcommon.UniqAttrs`: `uniqByLast` on the key. -/
def UniqAttrs (attrs : List Attr) : List Attr :=
  attrs.foldl uniqStep []

/-- Go `slogcommon.AppendAttrsToGroup(groups, actualAttrs, newAttrs...)`: the new
attributes go under the group path `groups`, into the first existing group of that name
at each level or into a new one; it works on a clone of `actualAttrs`. -/
def AppendAttrsToGroup : List String → List Attr → List Attr → List Attr
  | [], actualAttrs, newAttrs => UniqAttrs (actualAttrs ++ newAttrs)
  | g :: gs, actualAttrs, newAttrs =>
    match actualAttrs.findIdx? (fun a => a.Key == g && a.Value.isGroup) with
    | some i =>
      actualAttrs.set i
        (Group g (AppendAttrsToGroup gs ((actualAttrs.getD i (.mk g .zero)).Value.Group) newAttrs))
    | none => UniqAttrs (actualAttrs ++ [Group g (AppendAttrsToGroup gs [] newAttrs)])

/-- The loop of `AppendRecordAttrsToAttrs` over the groups, from the last to the first:
`attr = slog.Attr{Key: groups[i], Value: slog.GroupValue(attr)}`. -/
def wrapInGroups : List String → Attr → Attr
  | [], attr => attr
  | g :: gs, attr => .mk g (GroupValue [wrapInGroups gs attr])

/-- Go `slogcommon.AppendRecordAttrsToAttrs(attrs, groups, record)`: a fresh slice of
`attrs` followed by each attribute of the record wrapped in the groups; `attrs` and
`groups` are only read. -/
def AppendRecordAttrsToAttrs (attrs : List Attr) (groups : List String) (record : Record) :
    List Attr :=
  attrs ++ record.attrs.map (wrapInGroups groups)

mutual
/-- Go `slogcommon.RemoveEmptyAttrs`: a `FilterMap` of `RemoveEmptyAttr`. -/
def RemoveEmptyAttrs : List Attr → List Attr
  | [] => []
  | a :: rest =>
    match RemoveEmptyAttr a with
    | some kept => kept :: RemoveEmptyAttrs rest
    | none => RemoveEmptyAttrs rest
/-- The callback of `RemoveEmptyAttrs`: a non-group attribute is dropped when its key is
empty or its value equals `slog.Value{}`; a group is rebuilt from its kept members and
dropped when none is kept. A group whose own key is empty is dropped here, where the
library keeps the fields of its members: the embedding is that of the library on
attribute lists in which every group has a key (`groupsKeyed`), and the statements on
elision are made for those. -/
def RemoveEmptyAttr : Attr → Option Attr
  | .mk key (.group as) =>
    if key = "" then none
    else if (RemoveEmptyAttrs as).isEmpty then none
    else some (.mk key (GroupValue (RemoveEmptyAttrs as)))
  | .mk key v =>
    if key = "" then none
    else if v.isZero then none
    else some (.mk key v)
end

/-! ## The handler: handler.go, option.go -/

/-- Go `slog.Handler` as held in `DiscordHandler.Handler`: the secondary handler, given
by a state and what its four methods answer in each state. -/
structure SlogHandler where
  State : Type
  st : State
  enabled : State → Context → Level → Bool
  handle : State → Context → Record → Option GoError
  withAttrs : State → List Attr → State
  withGroup : State → String → State

def SlogHandler.Enabled (s : SlogHandler) (ctx : Context) (level : Level) : Bool :=
  s.enabled s.st ctx level

def SlogHandler.Handle (s : SlogHandler) (ctx : Context) (record : Record) : Option GoError :=
  s.handle s.st ctx record

def SlogHandler.WithAttrs (s : SlogHandler) (attrs : List Attr) : SlogHandler :=
  { s with st := s.withAttrs s.st attrs }

def SlogHandler.WithGroup (s : SlogHandler) (name : String) : SlogHandler :=
  { s with st := s.withGroup s.st name }

/-- Go `type ColorMap map[slog.Level]int`: `none` is the nil map, `some es` a map with the
entries `es` (a Go map has one entry per key; a lookup takes the entry of the key). -/
abbrev ColorMap := Option (List (Level × Int))

/-- Go map indexing `m[level]`: the entry of the key, the zero value when there is none or
the map is nil. -/
def ColorMap.get (m : ColorMap) (level : Level) : Int :=
  match m with
  | none => 0
  | some es => (es.lookup level).getD 0

/-- Go `var DefaultColorMappings`. -/
def DefaultColorMappings : ColorMap :=
  some [(LevelDebug, 0x63C5DA), (LevelInfo, 0x63C5DA), (LevelWarn, 0xFFA500),
    (LevelError, 0xFF0000)]

/-- Go `type BuildEmbed func(slog.Record, []slog.Attr, *discord.EmbedBuilder) discord.Embed`. -/
abbrev BuildEmbed := Record → List Attr → EmbedBuilder → Embed

/-- A Go `[]string` slice header: backing array (an index into `Mem.arrays`), length and
capacity. The nil slice has length and capacity 0. -/
structure StrSlice where
  arr : Nat
  len : Nat
  cap : Nat
deriving DecidableEq, Repr

/-- The nil `[]string`. -/
def StrSlice.nil : StrSlice := { arr := 0, len := 0, cap := 0 }

/-- Go `type DiscordHandler struct`; nil-able fields are options (`none` is nil). -/
structure DiscordHandler where
  Handler : Option SlogHandler
  WebhookURL : String
  MinLevel : Level
  SyncMode : Bool
  Timeout : Duration
  ColorMap : ColorMap
  BuildEmbed : Option BuildEmbed
  Client : Option Client
  attrs : List Attr
  groups : StrSlice

/-- A `*DiscordHandler`: the index of the struct in `Mem.objs`. -/
abbrev Ptr := Nat

/-- The Go heap as far as the handler touches it: the allocated handler structs and the
backing arrays of their `groups` slices (each array as long as its capacity). -/
structure Mem where
  objs : List DiscordHandler
  arrays : List (List String)

/-- The elements of a slice: the first `len` cells of its backing array. -/
def readSlice (arrays : List (List String)) (s : StrSlice) : List String :=
  (arrays.getD s.arr []).take s.len

/-- The group names a handler holds, read through the heap. -/
def DiscordHandler.groupNames (h : DiscordHandler) (m : Mem) : List String :=
  readSlice m.arrays h.groups

/-- The capacity Go's runtime computes for a slice that must grow to hold one more
element (`nextslicecap` with `newLen = oldCap + 1`): 1 from 0, double below 256 elements,
then a quarter more plus 192. The runtime then rounds the allocation up to a size class,
which is left out: it can only enlarge the capacity, and for a `[]string` it does not
change the capacities 1, 2 and 4 that the evaluated statements go through. The general
statements use only that the new capacity exceeds the old one. -/
def nextslicecap (oldCap : Nat) : Nat :=
  if oldCap = 0 then 1
  else if oldCap < 256 then oldCap + oldCap
  else oldCap + (oldCap + 3 * 256) / 4

/-- Go `append(s, x)` on a `[]string`: when `len < cap` the element is written into the
backing array in place and the header extended; otherwise a new array is allocated, the
elements copied, and the element written. -/
def goAppend (arrays : List (List String)) (s : StrSlice) (x : String) :
    List (List String) × StrSlice :=
  if s.len < s.cap then
    (arrays.set s.arr ((arrays.getD s.arr []).set s.len x), { s with len := s.len + 1 })
  else
    let newcap := nextslicecap s.cap
    (arrays ++ [readSlice arrays s ++ x :: List.replicate (newcap - (s.len + 1)) ""],
      { arr := arrays.length, len := s.len + 1, cap := newcap })

/-- A call the handler makes on a collaborator. -/
inductive Event where
  | BuildEmbed (record : Record) (attrs : List Attr) (eb : EmbedBuilder)
  | CreateEmbeds (embeds : List Embed)
  | HandlerHandle (ctx : Context) (record : Record)
  | HandlerWithAttrs (attrs : List Attr)
  | HandlerWithGroup (name : String)

/-- What a piece of code did: the calls it made, in order, and whether it ended in a panic. -/
structure Run where
  events : List Event
  panicked : Bool

mutual
/-- Go `(*DiscordHandler).populateEmbedFields`, the loop over `attrs`; it reads no field
of the receiver. -/
def populateEmbedFields (base : String) : List Attr → EmbedBuilder → EmbedBuilder
  | [], eb => eb
  | attr :: rest, eb => populateEmbedFields base rest (populateEmbedField base attr eb)
/-- The body of the loop of `populateEmbedFields`, for one attribute. -/
def populateEmbedField (base : String) : Attr → EmbedBuilder → EmbedBuilder
  | .mk key (.group as), eb => populateEmbedFields (base ++ key ++ ".") as eb
  | .mk key val, eb => eb.AddField (base ++ key) (ValueToString val) false
end

/-- Go `(*DiscordHandler).defaultBuildEmbed`; it reads no field of the receiver. -/
def defaultBuildEmbed (record : Record) (attrs : List Attr) (eb : EmbedBuilder) : Embed :=
  let eb := ((eb.SetTitle record.Level.String).SetDescription record.Message).SetTimestamp
    record.Time
  (populateEmbedFields "" attrs eb).Build

/-- Go `defaultHandler()`. -/
def defaultHandler : DiscordHandler :=
  { Handler := none, WebhookURL := "", MinLevel := LevelDebug, SyncMode := false,
    Timeout := 10 * 1000000000, ColorMap := DefaultColorMappings,
    BuildEmbed := some defaultBuildEmbed, Client := none, attrs := [],
    groups := StrSlice.nil }

/-- Go `type optFunc func(h *DiscordHandler)`, the one implementation of `Option`. -/
abbrev optFunc := DiscordHandler → DiscordHandler

/-- Go `optFunc.apply`. -/
def optFunc.apply (opt : optFunc) (h : DiscordHandler) : DiscordHandler := opt h

def WithHandler (handler : Option SlogHandler) : optFunc :=
  fun h => { h with Handler := handler }

def WithMinLevel (level : Level) : optFunc :=
  fun h => { h with MinLevel := level }

def WithSyncMode (sync : Bool) : optFunc :=
  fun h => { h with SyncMode := sync }

def WithTimeout (timeout : Duration) : optFunc :=
  fun h => { h with Timeout := timeout }

def WithColorMap (colorMap : ColorMap) : optFunc :=
  fun h => { h with ColorMap := colorMap }

def WithEmbedBuilder (buildEmbed : Option BuildEmbed) : optFunc :=
  fun h => { h with BuildEmbed := buildEmbed }

/-- Go `webhook.NewWithURL`, as the handler uses it: from the URL, the HTTP timeout and
the logger's handler (when one is given) to a client or an error. -/
abbrev NewWithURL := String → Duration → Option SlogHandler → Except GoError Client

/-- Go `(*DiscordHandler).initWebhookClient`. -/
def initWebhookClient (newWithURL : NewWithURL) (h : DiscordHandler) :
    Except GoError DiscordHandler :=
  match newWithURL h.WebhookURL h.Timeout h.Handler with
  | .error err => .error (.wrap "could not init webhook client: " err)
  | .ok client => .ok { h with Client := some client }

/-- Go `NewDiscordHandler`: on success the new struct is allocated and its pointer returned. -/
def NewDiscordHandler (newWithURL : NewWithURL) (m : Mem) (webhookURL : String)
    (opts : List optFunc) : Mem × Except GoError Ptr :=
  let h := { defaultHandler with WebhookURL := webhookURL }
  let h := opts.foldl (fun h opt => opt.apply h) h
  if h.WebhookURL = "" then (m, .error (.new "missing webhook URL"))
  else
    match initWebhookClient newWithURL h with
    | .error err => (m, .error err)
    | .ok h => ({ m with objs := m.objs ++ [h] }, .ok m.objs.length)

/-- Go `(*DiscordHandler).Enabled`. -/
def DiscordHandler.Enabled (h : DiscordHandler) (ctx : Context) (level : Level) : Bool :=
  let handlerEnabled :=
    match h.Handler with
    | some handler => handler.Enabled ctx level
    | none => false
  decide (level ≥ h.MinLevel) || handlerEnabled

/-- Go `(*DiscordHandler).logDiscord`: the attributes are merged and cleaned, the draft
gets the color, the builder is called (a nil builder panics), and the embed is sent
(a nil client panics); what `CreateEmbeds` returns is dropped. -/
def DiscordHandler.logDiscord (h : DiscordHandler) (m : Mem) (record : Record) : Run :=
  let attrs := AppendRecordAttrsToAttrs h.attrs (h.groupNames m) record
  let attrs := RemoveEmptyAttrs attrs
  let eb := NewEmbedBuilder
  let eb := eb.SetColor (h.ColorMap.get record.Level)
  match h.BuildEmbed with
  | none => { events := [], panicked := true }
  | some buildEmbed =>
    let embed := buildEmbed record attrs eb
    match h.Client with
    | none => { events := [.BuildEmbed record attrs eb], panicked := true }
    | some _ =>
      { events := [.BuildEmbed record attrs eb, .CreateEmbeds [embed]], panicked := false }

/-- What one call of `Handle` did: the calls made before it returned (or panicked), the
goroutines it started with `go`, and what it returned: `none` when it panicked instead of
returning, `some none` for a nil error. -/
structure HandleResult where
  events : List Event
  spawned : List Run
  ret : Option (Option GoError)

/-- The tail of `Handle`: nil without a secondary handler, else that handler's result. -/
def DiscordHandler.forward (h : DiscordHandler) (ctx : Context) (record : Record) :
    List Event × Option GoError :=
  match h.Handler with
  | none => ([], none)
  | some handler => ([.HandlerHandle ctx record], handler.Handle ctx record)

/-- Go `(*DiscordHandler).Handle`: at or above `MinLevel`, `logDiscord` runs on the
calling goroutine in synchronous mode (a panic in it ends `Handle`) and in a goroutine of
its own otherwise; then the record goes to the secondary handler, if there is one. -/
def DiscordHandler.Handle (h : DiscordHandler) (m : Mem) (ctx : Context) (record : Record) :
    HandleResult :=
  if record.Level ≥ h.MinLevel then
    if h.SyncMode then
      let run := h.logDiscord m record
      if run.panicked then { events := run.events, spawned := [], ret := none }
      else
        { events := run.events ++ (h.forward ctx record).1, spawned := [],
          ret := some (h.forward ctx record).2 }
    else
      { events := (h.forward ctx record).1, spawned := [h.logDiscord m record],
        ret := some (h.forward ctx record).2 }
  else
    { events := (h.forward ctx record).1, spawned := [], ret := some (h.forward ctx record).2 }

/-- What `WithAttrs` or `WithGroup` did: the heap after the call, the pointer returned and
the calls made on the secondary handler. -/
structure WithResult where
  mem : Mem
  ptr : Ptr
  events : List Event

/-- Go `(*DiscordHandler).WithAttrs`: `nh := *h`, the attributes extended under the
current groups, the secondary handler extended alike, and `&nh` returned. A nil
receiver panics (`none`). -/
def WithAttrs (m : Mem) (p : Ptr) (attrs : List Attr) : Option WithResult :=
  match m.objs.get? p with
  | none => none
  | some h =>
    let nh := { h with attrs := AppendAttrsToGroup (h.groupNames m) h.attrs attrs }
    match h.Handler with
    | some handler =>
      some { mem := { m with objs := m.objs ++ [{ nh with Handler := some (handler.WithAttrs attrs) }] },
             ptr := m.objs.length, events := [.HandlerWithAttrs attrs] }
    | none => some { mem := { m with objs := m.objs ++ [nh] }, ptr := m.objs.length, events := [] }

/-- Go `(*DiscordHandler).WithGroup`: the receiver itself for the empty name; else
`nh := *h`, `nh.groups = append(nh.groups, name)`, the secondary handler extended alike,
and `&nh` returned. A nil receiver with a non-empty name panics (`none`). -/
def WithGroup (m : Mem) (p : Ptr) (name : String) : Option WithResult :=
  if name = "" then some { mem := m, ptr := p, events := [] }
  else
    match m.objs.get? p with
    | none => none
    | some h =>
      let grown := goAppend m.arrays h.groups name
      let nh := { h with groups := grown.2 }
      match h.Handler with
      | some handler =>
        some { mem := { objs := m.objs ++ [{ nh with Handler := some (handler.WithGroup name) }],
                        arrays := grown.1 },
               ptr := m.objs.length, events := [.HandlerWithGroup name] }
      | none =>
        some { mem := { objs := m.objs ++ [nh], arrays := grown.1 }, ptr := m.objs.length,
               events := [] }

/-! ## Vocabulary of the statements -/

/-- The embeds a `CreateEmbeds` call carries. -/
def Event.sent : Event → Option (List Embed)
  | .CreateEmbeds embeds => some embeds
  | _ => none

/-- A secondary handler in the manner of `slog.NewJSONHandler` with a level option: it
is enabled from `min` on, keeps what it is given and answers `Handle` with `result`. -/
def levelHandler (min : Level) (result : Option GoError) : SlogHandler :=
  { State := List Attr × List String
    st := ([], [])
    enabled := fun _ _ level => decide (level ≥ min)
    handle := fun _ _ _ => result
    withAttrs := fun st attrs => (st.1 ++ attrs, st.2)
    withGroup := fun st name => (st.1, st.2 ++ [name]) }

/-- A webhook client whose every `CreateEmbeds` fails with `err`, or succeeds for `none`. -/
def fixedClient (err : Option GoError) : Client :=
  { CreateEmbeds := fun _ => err }

/-- The empty heap. -/
def Mem.empty : Mem := { objs := [], arrays := [] }

/-- The handler `NewDiscordHandler("webhook_url", opts...)` allocates in the empty heap
when `webhook.NewWithURL` answers with the client `c` (the default handler should it fail). -/
def newHandler (c : Client) (opts : List optFunc) : DiscordHandler :=
  (NewDiscordHandler (fun _ _ _ => .ok c) Mem.empty "webhook_url" opts).1.objs.getD 0
    defaultHandler

/-- A record at the given level with the given attributes. -/
def exampleRecord (level : Level) (attrs : List Attr) : Record :=
  { Time := 1700000000, Message := "an error occurred", Level := level, attrs := attrs }

mutual
/-- The non-group leaves of an attribute list, depth-first and left to right, each with
the keys on the path from the top-level attribute down to it. -/
def leaves : List Attr → List (List String × Value)
  | [] => []
  | attr :: rest => leavesOf attr ++ leaves rest
/-- The leaves under one attribute. -/
def leavesOf : Attr → List (List String × Value)
  | .mk key (.group as) => (leaves as).map (fun p => (key :: p.1, p.2))
  | .mk key val => [([key], val)]
end

/-- The keys of a path joined with a dot. -/
def dotted (path : List String) : String :=
  ".".intercalate path

/-- The field the specification gives a leaf: dotted name, rendered value, not inline. -/
def leafField (p : List String × Value) : EmbedField :=
  { Name := dotted p.1, Value := ValueToString p.2, Inline := some false }

/-- The field of a leaf when the walk stands below the name base `base`. -/
def leafFieldUnder (base : String) (p : List String × Value) : EmbedField :=
  { Name := base ++ dotted p.1, Value := ValueToString p.2, Inline := some false }

/-- A slice header is sound in a heap: its length is within its capacity and, unless the
capacity is 0, its backing array is allocated and as long as the capacity. -/
def SliceOK (arrays : List (List String)) (s : StrSlice) : Prop :=
  s.len ≤ s.cap ∧ (s.cap = 0 ∨ (arrays.get? s.arr).map List.length = some s.cap)

instance (arrays : List (List String)) (s : StrSlice) : Decidable (SliceOK arrays s) := by
  unfold SliceOK
  infer_instance

/-- A heap is well formed when the `groups` slice of every allocated handler is sound. -/
def Mem.WF (m : Mem) : Prop :=
  ∀ h ∈ m.objs, SliceOK m.arrays h.groups

instance (m : Mem) : Decidable m.WF := by
  unfold Mem.WF
  infer_instance

/-- Whether a leaf survives `RemoveEmptyAttrs`: no key on its path is empty and its value
is not the zero value. -/
def leafKept (p : List String × Value) : Bool :=
  p.1.all (fun k => decide (k ≠ "")) && !p.2.isZero

/-- The leaves under an attribute that may have been dropped. -/
def leavesOfKept : Option Attr → List (List String × Value)
  | some attr => leavesOf attr
  | none => []

/-- The embeds a run sent, one list per `CreateEmbeds` call. -/
def Run.sent (r : Run) : List (List Embed) :=
  r.events.filterMap Event.sent

/-- The field of a record attribute under the accumulated groups: the group names and
the key joined with dots. -/
def groupedField (groups : List String) (a : Attr) : EmbedField :=
  { Name := dotted (groups ++ [a.Key]), Value := ValueToString a.Value, Inline := some false }

/-- What the handler at `p` sends for a record in synchronous delivery. -/
def sentAt (m : Mem) (p : Ptr) (record : Record) : Option (List (List Embed)) :=
  (m.objs.get? p).map (fun h => (h.logDiscord m record).sent)

/-- The handler of example/custom_color_map.go: synchronous, INFO mapped to purple, then
`logger.With("env", "local")` and `logger.WithGroup("request")`. -/
def colorMapExample : Option WithResult :=
  match NewDiscordHandler (fun _ _ _ => .ok (fixedClient none)) Mem.empty "webhook_url"
      [WithSyncMode true, WithColorMap (some [(LevelInfo, 0xA020F0)])] with
  | (m, .ok p) =>
    (WithAttrs m p [.mk "env" (.string "local")]).bind
      (fun r => WithGroup r.mem r.ptr "request")
  | (_, .error _) => none

/-- The record of example/custom_color_map.go: `logger.Info("incoming request", ...)`. -/
def colorMapRecord : Record :=
  { Time := 1700000000, Message := "incoming request", Level := LevelInfo,
    attrs := [.mk "payload" (.string "some payload"), .mk "user_id" (.string "some_user_id")] }

/-- The heap after `NewDiscordHandler("webhook_url", WithSyncMode(true))` in the empty
heap, with a client whose sends succeed; the handler is at pointer 0. -/
def syncHeap : Mem :=
  (NewDiscordHandler (fun _ _ _ => .ok (fixedClient none)) Mem.empty "webhook_url"
    [WithSyncMode true]).1

/-- The heap after `NewDiscordHandler("webhook_url", opts...)` in the empty heap when
`webhook.NewWithURL` answers with the client `c`; `newHandler c opts` is at pointer 0. -/
def newHeap (c : Client) (opts : List optFunc) : Mem :=
  (NewDiscordHandler (fun _ _ _ => .ok c) Mem.empty "webhook_url" opts).1

/-- The loop of `customBuilder`: `builder.AddField(attr.Key, attr.Value.String(), true)`. -/
def customFields : List Attr → EmbedBuilder → EmbedBuilder
  | [], builder => builder
  | attr :: rest, builder =>
    customFields rest (builder.AddField attr.Key attr.Value.String true)

/-- The `customBuilder` of example/custom_embed.go. -/
def customBuilder : BuildEmbed := fun record attrs builder =>
  let builder := builder.SetTitle ("Custom Title - Level " ++ record.Level.String)
  let builder := builder.SetDescription ("Custom Discription\nMsg: " ++ record.Message)
  let builder := builder.SetTimestamp record.Time
  let builder := if record.Level = LevelError then builder.SetColor 0xE30B5C else builder
  (customFields attrs builder).Build

/-- The handler of example/custom_embed.go: synchronous, the custom builder, then
`logger.With("env", "local")` and `logger.WithGroup("request")`. -/
def customEmbedExample : Option WithResult :=
  match NewDiscordHandler (fun _ _ _ => .ok (fixedClient none)) Mem.empty "webhook_url"
      [WithSyncMode true, WithEmbedBuilder (some customBuilder)] with
  | (m, .ok p) =>
    (WithAttrs m p [.mk "env" (.string "local")]).bind
      (fun r => WithGroup r.mem r.ptr "request")
  | (_, .error _) => none

/-- The record of example/custom_embed.go: `logger.Error("incoming request", ...)`. -/
def customEmbedRecord : Record :=
  { Time := 1700000000, Message := "incoming request", Level := LevelError,
    attrs := [.mk "payload" (.string "some payload"), .mk "user_id" (.string "some_user_id")] }

/-- The attribute list a builder call carries. -/
def Event.builderAttrs : Event → Option (List Attr)
  | .BuildEmbed _ attrs _ => some attrs
  | _ => none

/-- The key of each attribute the handler at `p` hands its builder for a record, with
whether its value is a group. -/
def builderAttrsAt (m : Mem) (p : Ptr) (record : Record) : Option (List (List (String × Bool))) :=
  (m.objs.get? p).map (fun h =>
    ((h.logDiscord m record).events.filterMap Event.builderAttrs).map
      (fun attrs => attrs.map (fun a => (a.Key, a.Value.isGroup))))

/-- Three `WithGroup` calls in a row from the handler of `syncHeap`: "a", "b", "c". -/
def deepChain : Option WithResult :=
  ((WithGroup syncHeap 0 "a").bind (fun r => WithGroup r.mem r.ptr "b")).bind
    (fun r => WithGroup r.mem r.ptr "c")

/-- The heap after `deepChain`: the last handler is at pointer 3 and holds three groups
in a backing array of capacity 4. -/
def deepHeap : Mem :=
  (deepChain.map (fun r => r.mem)).getD Mem.empty

/-- The handler at pointer 3 of `deepHeap`. -/
def deepHandler : DiscordHandler :=
  deepHeap.objs.getD 3 defaultHandler

/-- The group names the handler at `p` reads in the heap `m`. -/
def groupNamesAt (m : Mem) (p : Ptr) : Option (List String) :=
  (m.objs.get? p).map (fun h => h.groupNames m)

/-- The names of the fields the handler at `p` sends for a record, per embed. -/
def fieldNamesAt (m : Mem) (p : Ptr) (record : Record) : Option (List (List String)) :=
  (sentAt m p record).map (fun sent => sent.flatten.map (fun e => e.Fields.map EmbedField.Name))

/-- One chaining call on a handler: `WithAttrs(attrs)` or `WithGroup(name)`. -/
inductive ChainCall where
  | attrs (attrs : List Attr)
  | group (name : String)

/-- A sequence of chaining calls, each made on the handler the one before returned. -/
def chain (m : Mem) (p : Ptr) : List ChainCall → Option WithResult
  | [] => some { mem := m, ptr := p, events := [] }
  | .attrs as :: rest =>
    match WithAttrs m p as with
    | none => none
    | some r =>
      (chain r.mem r.ptr rest).map (fun r2 => { r2 with events := r.events ++ r2.events })
  | .group name :: rest =>
    match WithGroup m p name with
    | none => none
    | some r =>
      (chain r.mem r.ptr rest).map (fun r2 => { r2 with events := r.events ++ r2.events })

/-- The same sequence of calls made on a secondary handler, in order. -/
def SlogHandler.chain (s : SlogHandler) : List ChainCall → SlogHandler
  | [] => s
  | .attrs as :: rest => (s.WithAttrs as).chain rest
  | .group name :: rest => (s.WithGroup name).chain rest

/-- Whether a chaining call reaches the secondary handler: `WithGroup("")` returns the
receiver before touching it. -/
def ChainCall.isLive : ChainCall → Bool
  | .attrs _ => true
  | .group name => decide (name ≠ "")

/-- The calls of a sequence that reach the secondary handler. -/
def liveCalls (calls : List ChainCall) : List ChainCall :=
  calls.filter ChainCall.isLive

/-- The call on the secondary handler a chaining call stands for. -/
def ChainCall.event : ChainCall → Event
  | .attrs as => .HandlerWithAttrs as
  | .group name => .HandlerWithGroup name

/-- The configuration two handlers share: client, URL, level, mode, timeout, color map
and builder. -/
def sameConfig (h nh : DiscordHandler) : Prop :=
  nh.Client = h.Client ∧ nh.WebhookURL = h.WebhookURL ∧ nh.MinLevel = h.MinLevel ∧
    nh.SyncMode = h.SyncMode ∧ nh.Timeout = h.Timeout ∧ nh.ColorMap = h.ColorMap ∧
    nh.BuildEmbed = h.BuildEmbed

/-- A value of the Go interface `Option` as a caller can hold it: what one of the six
`With` functions of option.go returned (the method of the interface is unexported and so
is `optFunc`, so there is no other). -/
inductive Opt where
  | WithHandler (handler : Option SlogHandler)
  | WithMinLevel (level : Level)
  | WithSyncMode (sync : Bool)
  | WithTimeout (timeout : Duration)
  | WithColorMap (colorMap : ColorMap)
  | WithEmbedBuilder (buildEmbed : Option BuildEmbed)

/-- The `optFunc` behind an option. -/
def Opt.fn : Opt → optFunc
  | .WithHandler handler => SlogDiscord.WithHandler handler
  | .WithMinLevel level => SlogDiscord.WithMinLevel level
  | .WithSyncMode sync => SlogDiscord.WithSyncMode sync
  | .WithTimeout timeout => SlogDiscord.WithTimeout timeout
  | .WithColorMap colorMap => SlogDiscord.WithColorMap colorMap
  | .WithEmbedBuilder buildEmbed => SlogDiscord.WithEmbedBuilder buildEmbed

/-- The secondary handler an option sets, if it sets one. -/
def Opt.handler? : Opt → Option (Option SlogHandler)
  | .WithHandler handler => some handler
  | _ => none

/-- The minimum level an option sets, if it sets one. -/
def Opt.minLevel? : Opt → Option Level
  | .WithMinLevel level => some level
  | _ => none

/-- The mode an option sets, if it sets one. -/
def Opt.syncMode? : Opt → Option Bool
  | .WithSyncMode sync => some sync
  | _ => none

/-- The timeout an option sets, if it sets one. -/
def Opt.timeout? : Opt → Option Duration
  | .WithTimeout timeout => some timeout
  | _ => none

/-- The color map an option sets, if it sets one. -/
def Opt.colorMap? : Opt → Option ColorMap
  | .WithColorMap colorMap => some colorMap
  | _ => none

/-- The builder an option sets, if it sets one. -/
def Opt.buildEmbed? : Opt → Option (Option BuildEmbed)
  | .WithEmbedBuilder buildEmbed => some buildEmbed
  | _ => none

/-- The value the last option of the list that sets a field gives it, `default` when no
option sets the field. -/
def lastSet {α : Type u} (sel : Opt → Option α) (opts : List Opt) (default : α) : α :=
  (opts.filterMap sel).getLast?.getD default

/-- The draft handler of `NewDiscordHandler` after its loop over the options. -/
def configured (webhookURL : String) (opts : List Opt) : DiscordHandler :=
  (opts.map Opt.fn).foldl (fun h opt => opt.apply h)
    { defaultHandler with WebhookURL := webhookURL }

/-- The calls of `webhook.NewWithURL` a run of `NewDiscordHandler` makes, with their
arguments: none when the URL is empty, since the function returns before
`initWebhookClient`; one otherwise. -/
def newWithURLCalls (webhookURL : String) (opts : List optFunc) :
    List (String × Duration × Option SlogHandler) :=
  let h := { defaultHandler with WebhookURL := webhookURL }
  let h := opts.foldl (fun h opt => opt.apply h) h
  if h.WebhookURL = "" then []
  else [(h.WebhookURL, h.Timeout, h.Handler)]

/-- The handler `NewDiscordHandler` returned: nil (`none`) beside an error. -/
def returnedHandler (r : Except GoError Ptr) : Option Ptr :=
  match r with
  | .ok p => some p
  | .error _ => none

/-- The error `NewDiscordHandler` returned: nil (`none`) beside a handler. -/
def returnedError (r : Except GoError Ptr) : Option GoError :=
  match r with
  | .ok _ => none
  | .error err => some err

/-- Two `WithGroup` calls on the handler at pointer 3 of `deepHeap`, which holds a, b, c
in an array of capacity 4: `h1 = h.WithGroup("d")`, then `h2 = h.WithGroup("e")`. -/
def siblingCalls : Option (WithResult × WithResult) :=
  (WithGroup deepHeap 3 "d").bind (fun r1 =>
    (WithGroup r1.mem 3 "e").map (fun r2 => (r1, r2)))

/-- The handlers reachable from `h0` by chaining: `h0` itself, and what `WithAttrs` or
`WithGroup` returns when called, in any heap, on a handler reachable from `h0`. -/
inductive Derived (h0 : DiscordHandler) : DiscordHandler → Prop where
  | root : Derived h0 h0
  | withAttrs (h nh : DiscordHandler) (m : Mem) (p : Ptr) (attrs : List Attr)
      (r : WithResult) : Derived h0 h → m.objs.get? p = some h →
      WithAttrs m p attrs = some r → r.mem.objs.get? r.ptr = some nh → Derived h0 nh
  | withGroup (h nh : DiscordHandler) (m : Mem) (p : Ptr) (name : String)
      (r : WithResult) : Derived h0 h → m.objs.get? p = some h →
      WithGroup m p name = some r → r.mem.objs.get? r.ptr = some nh → Derived h0 nh

mutual
/-- Whether every group of an attribute list, at any depth, has a non-empty key. -/
def groupsKeyed : List Attr → Bool
  | [] => true
  | attr :: rest => groupKeyed attr && groupsKeyed rest
/-- Whether an attribute is no group with an empty key and holds none, at any depth. -/
def groupKeyed : Attr → Bool
  | .mk key (.group as) => decide (key ≠ "") && groupsKeyed as
  | .mk _ _ => true
end

/-- Whether a leaf is kept on its own account: its own key, the last of its path, is not
empty and its value is not the zero value. -/
def leafOwnKept (p : List String × Value) : Bool :=
  decide (p.1.getLast? ≠ some "") && !p.2.isZero

/-! ## Values whose rendering can panic

The embedding above is over the values whose rendering always returns. `Raw` repeats the
part of it that `logDiscord` runs through with the default builder, over values that
include those of kind Any, whose rendering calls the code of the held value. -/

namespace Raw

mutual
/-- Go `slog.Value` as a record can carry it: the kinds of `SlogDiscord.Value` and, as
`any`, a value of kind Any that holds something. Such a value is given by what the
libraries make of it: `printed` is what `fmt.Sprint` prints for the held value, `text`
is what `slogcommon.AnyValueToString` returns for it, and `none` when that call panics.
It panics on a nil `*time.Time`: the type implements `encoding.TextMarshaler`, so
`MarshalText` is called, through the nil pointer. -/
inductive Value where
  | zero
  | string (s : String)
  | int64 (i : Int)
  | bool (b : Bool)
  | any (printed : String) (text : Option String)
  | group (as : List Attr)
/-- Go `slog.Attr`: a key and a value. -/
inductive Attr where
  | mk (Key : String) (Value : Value)
end

/-- Field `Key` of `slog.Attr`. -/
def Attr.Key : Attr → String
  | .mk k _ => k

/-- Field `Value` of `slog.Attr`. -/
def Attr.Value : Attr → Value
  | .mk _ v => v

/-- Go `v.Equal(slog.Value{})`: only the zero value is equal; a value of kind Any that
holds something is not. -/
def Value.isZero : Value → Bool
  | .zero => true
  | _ => false

/-- Go `slog.Value.isEmptyGroup`: kind Group with no members. -/
def Value.isEmptyGroup : Value → Bool
  | .group [] => true
  | _ => false

/-- Go `slog.GroupValue`: a group value of the given attributes, empty groups removed. -/
def GroupValue (as : List Attr) : Value :=
  .group (as.filter (fun a => !a.Value.isEmptyGroup))

/-- Go `slog.Record`, with the attributes `Record.Attrs` iterates over. -/
structure Record where
  Time : Time
  Message : String
  Level : Level
  attrs : List Attr

mutual
/-- Go `slog.Value.String`: like `fmt.Sprint` of the value. -/
def Value.String : Value → String
  | .zero => "<nil>"
  | .string s => s
  | .int64 i => toString i
  | .bool b => if b then "true" else "false"
  | .any printed _ => printed
  | .group as => "[" ++ " ".intercalate (attrStrings as) ++ "]"
/-- Go `slog.Attr.String`, `key=value`, of each attribute of a list. -/
def attrStrings : List Attr → List String
  | [] => []
  | .mk key val :: rest => (key ++ "=" ++ Value.String val) :: attrStrings rest
end

/-- Go `slogcommon.ValueToString`: the text of the value, `none` when the call panics.
The kinds String, Int64 and Bool are rendered by the function itself; the other kinds go
to `AnyValueToString`, which prints nil as `<nil>` and a group as `fmt` prints its
attributes, and runs the code of a held value. -/
def ValueToString : Value → Option String
  | .zero => some "<nil>"
  | .string s => some s
  | .int64 i => some (toString i)
  | .bool b => some (if b then "true" else "false")
  | .any _ text => text
  | .group as => some (Value.String (.group as))

/-- The loop of `AppendRecordAttrsToAttrs` over the groups, from the last to the first:
`attr = slog.Attr{Key: groups[i], Value: slog.GroupValue(attr)}`. -/
def wrapInGroups : List String → Attr → Attr
  | [], attr => attr
  | g :: gs, attr => .mk g (GroupValue [wrapInGroups gs attr])

/-- Go `slogcommon.AppendRecordAttrsToAttrs(attrs, groups, record)`. -/
def AppendRecordAttrsToAttrs (attrs : List Attr) (groups : List String) (record : Record) :
    List Attr :=
  attrs ++ record.attrs.map (wrapInGroups groups)

mutual
/-- Go `slogcommon.RemoveEmptyAttrs`: a `FilterMap` of `RemoveEmptyAttr`. -/
def RemoveEmptyAttrs : List Attr → List Attr
  | [] => []
  | a :: rest =>
    match RemoveEmptyAttr a with
    | some kept => kept :: RemoveEmptyAttrs rest
    | none => RemoveEmptyAttrs rest
/-- The callback of `RemoveEmptyAttrs`, as `SlogDiscord.RemoveEmptyAttr`, with the same
reserve on a group whose own key is empty. -/
def RemoveEmptyAttr : Attr → Option Attr
  | .mk key (.group as) =>
    if key = "" then none
    else if (RemoveEmptyAttrs as).isEmpty then none
    else some (.mk key (GroupValue (RemoveEmptyAttrs as)))
  | .mk key v =>
    if key = "" then none
    else if v.isZero then none
    else some (.mk key v)
end

mutual
/-- Go `(*DiscordHandler).populateEmbedFields`, the loop over `attrs`: `none` when a
rendering panics, which ends the loop there. -/
def populateEmbedFields (base : String) : List Attr → EmbedBuilder → Option EmbedBuilder
  | [], eb => some eb
  | attr :: rest, eb =>
    match populateEmbedField base attr eb with
    | some eb => populateEmbedFields base rest eb
    | none => none
/-- The body of the loop of `populateEmbedFields`, for one attribute. -/
def populateEmbedField (base : String) : Attr → EmbedBuilder → Option EmbedBuilder
  | .mk key (.group as), eb => populateEmbedFields (base ++ key ++ ".") as eb
  | .mk key val, eb =>
    match ValueToString val with
    | some text => some (eb.AddField (base ++ key) text false)
    | none => none
end

/-- Go `(*DiscordHandler).defaultBuildEmbed`: `none` when it panics. -/
def defaultBuildEmbed (record : Record) (attrs : List Attr) (eb : EmbedBuilder) :
    Option Embed :=
  let eb := ((eb.SetTitle record.Level.String).SetDescription record.Message).SetTimestamp
    record.Time
  (populateEmbedFields "" attrs eb).map EmbedBuilder.Build

/-- Go `type BuildEmbed`, a function that may panic (`none`) instead of returning. -/
abbrev BuildEmbed := Record → List Attr → EmbedBuilder → Option Embed

/-- The fields of `DiscordHandler` that `logDiscord` reads; `groups` is the slice as read. -/
structure DiscordHandler where
  ColorMap : ColorMap
  BuildEmbed : Option BuildEmbed
  Client : Option Client
  attrs : List Attr
  groups : List String

/-- A call `logDiscord` makes on a collaborator. -/
inductive Event where
  | BuildEmbed (record : Record) (attrs : List Attr) (eb : EmbedBuilder)
  | CreateEmbeds (embeds : List Embed)

/-- What a run of `logDiscord` did: the calls it made, in order, and whether it ended
in a panic. -/
structure Run where
  events : List Event
  panicked : Bool

/-- The attributes `logDiscord` hands the builder: lines 134 and 135 of handler.go. -/
def DiscordHandler.merged (h : DiscordHandler) (record : Record) : List Attr :=
  RemoveEmptyAttrs (AppendRecordAttrsToAttrs h.attrs h.groups record)

/-- The draft `logDiscord` hands the builder: lines 137 and 138 of handler.go. -/
def DiscordHandler.draft (h : DiscordHandler) (record : Record) : EmbedBuilder :=
  NewEmbedBuilder.SetColor (h.ColorMap.get record.Level)

/-- Go `(*DiscordHandler).logDiscord`. Calling a nil `BuildEmbed` panics, a panic of the
builder goes up through `logDiscord`, and so does calling `CreateEmbeds` on a nil
`Client`. -/
def DiscordHandler.logDiscord (h : DiscordHandler) (record : Record) : Run :=
  let attrs := AppendRecordAttrsToAttrs h.attrs h.groups record
  let attrs := RemoveEmptyAttrs attrs
  let eb := NewEmbedBuilder
  let eb := eb.SetColor (h.ColorMap.get record.Level)
  match h.BuildEmbed with
  | none => { events := [], panicked := true }
  | some buildEmbed =>
    match buildEmbed record attrs eb with
    | none => { events := [.BuildEmbed record attrs eb], panicked := true }
    | some embed =>
      match h.Client with
      | none => { events := [.BuildEmbed record attrs eb], panicked := true }
      | some _ =>
        { events := [.BuildEmbed record attrs eb, .CreateEmbeds [embed]], panicked := false }

/-- The embeds a `CreateEmbeds` call carries. -/
def Event.sent : Event → Option (List Embed)
  | .CreateEmbeds embeds => some embeds
  | _ => none

/-- The embeds a run sent, one list per `CreateEmbeds` call. -/
def Run.sent (r : Run) : List (List Embed) :=
  r.events.filterMap Event.sent

mutual
/-- A list of attributes of `SlogDiscord.Attr` among the attributes of `Raw`. -/
def ofAttrs : List SlogDiscord.Attr → List Attr
  | [] => []
  | a :: rest => ofAttr a :: ofAttrs rest
/-- An attribute of `SlogDiscord.Attr` among the attributes of `Raw`. -/
def ofAttr : SlogDiscord.Attr → Attr
  | .mk key .zero => .mk key .zero
  | .mk key (.string s) => .mk key (.string s)
  | .mk key (.int64 i) => .mk key (.int64 i)
  | .mk key (.bool b) => .mk key (.bool b)
  | .mk key (.group as) => .mk key (.group (ofAttrs as))
end

/-- A record of `SlogDiscord.Record` among the records of `Raw`. -/
def ofRecord (record : SlogDiscord.Record) : Record :=
  { Time := record.Time, Message := record.Message, Level := record.Level,
    attrs := ofAttrs record.attrs }

/-- The handler `h` in the heap `m` as `logDiscord` reads it, with the default builder. -/
def ofHandler (h : SlogDiscord.DiscordHandler) (m : Mem) : DiscordHandler :=
  { ColorMap := h.ColorMap, BuildEmbed := some defaultBuildEmbed, Client := h.Client,
    attrs := ofAttrs h.attrs, groups := h.groupNames m }

mutual
/-- Whether the rendering of every value of the list, at any depth, returns. -/
def attrsRender : List Attr → Bool
  | [] => true
  | attr :: rest => attrRenders attr && attrsRender rest
/-- Whether the rendering of every value under the attribute returns. -/
def attrRenders : Attr → Bool
  | .mk _ (.group as) => attrsRender as
  | .mk _ (.any _ text) => text.isSome
  | .mk _ _ => true
end

/-- A record with one attribute `t` of kind Any that holds a nil `*time.Time`. -/
def nilTimeRecord : Record :=
  { Time := 1700000000, Message := "an error occurred", Level := LevelInfo,
    attrs := [.mk "t" (.any "<nil>" none)] }

end Raw

/-! ## Theorems -/

/-- C1. `Enabled` is true exactly when the level is at least `MinLevel` or a secondary
handler is present and enabled for the level; without a secondary handler it equals the
comparison, and a level below `MinLevel` that no secondary handler enables gives false. -/
theorem enabled_iff_minLevel_or_secondary (h : DiscordHandler) (ctx : Context) (l : Level) :
    (h.Enabled ctx l = true ↔
        (l ≥ h.MinLevel ∨ ∃ s, h.Handler = some s ∧ s.Enabled ctx l = true)) ∧
      (h.Handler = none → h.Enabled ctx l = decide (l ≥ h.MinLevel)) ∧
      (l < h.MinLevel → (∀ s, h.Handler = some s → s.Enabled ctx l = false) →
        h.Enabled ctx l = false) := by
  refine ⟨?_, ?_, ?_⟩
  · cases hH : h.Handler <;> simp [DiscordHandler.Enabled, hH]
  · intro hH
    simp [DiscordHandler.Enabled, hH]
  · intro hl hs
    cases hH : h.Handler with
    | none => simpa [DiscordHandler.Enabled, hH] using hl
    | some s =>
      have := hs s hH
      simpa [DiscordHandler.Enabled, hH, this] using hl

/-- C1 at concrete handlers: minimum WARN with a secondary enabled from DEBUG on is
enabled at INFO, and the same handler without a secondary is not. -/
theorem enabled_iff_minLevel_or_secondary_witness :
    ((WithHandler (some (levelHandler LevelDebug none))
        (WithMinLevel LevelWarn defaultHandler)).Enabled 0 LevelInfo = true) ∧
      ((WithMinLevel LevelWarn defaultHandler).Enabled 0 LevelInfo = false) := by
  constructor
  · exact (enabled_iff_minLevel_or_secondary _ 0 LevelInfo).1.mpr
      (Or.inr ⟨levelHandler LevelDebug none, rfl, by decide⟩)
  · exact (enabled_iff_minLevel_or_secondary _ 0 LevelInfo).2.2 (by decide)
      (fun s hs => by cases hs)

/-- What `logDiscord` does on a handler holding a builder and a client. -/
theorem logDiscord_ready (h : DiscordHandler) (m : Mem) (record : Record) (f : BuildEmbed)
    (c : Client) (hb : h.BuildEmbed = some f) (hc : h.Client = some c) :
    h.logDiscord m record =
      { events :=
          [.BuildEmbed record
              (RemoveEmptyAttrs (AppendRecordAttrsToAttrs h.attrs (h.groupNames m) record))
              (NewEmbedBuilder.SetColor (h.ColorMap.get record.Level)),
            .CreateEmbeds
              [f record
                (RemoveEmptyAttrs (AppendRecordAttrsToAttrs h.attrs (h.groupNames m) record))
                (NewEmbedBuilder.SetColor (h.ColorMap.get record.Level))]],
        panicked := false } := by
  simp [DiscordHandler.logDiscord, hb, hc]

/-- The accumulator of `String.intercalate` can be split off in front. -/
theorem intercalate_go_append (x s : String) :
    ∀ (as : List String) (acc : String),
      String.intercalate.go (x ++ acc) s as = x ++ String.intercalate.go acc s as := by
  intro as
  induction as with
  | nil => intro acc; simp [String.intercalate.go]
  | cons a as ih =>
    intro acc
    simp only [String.intercalate.go]
    rw [String.append_assoc, String.append_assoc, ← String.append_assoc acc, ih]

/-- A dotted path of at least two keys is the first key, a dot and the dotted rest. -/
theorem dotted_cons_cons (k k2 : String) (p : List String) :
    dotted (k :: k2 :: p) = k ++ "." ++ dotted (k2 :: p) := by
  simp only [dotted, String.intercalate, String.intercalate.go]
  rw [intercalate_go_append]

/-- A path of one key is that key. -/
theorem dotted_singleton (k : String) : dotted [k] = k := by
  simp [dotted, String.intercalate, String.intercalate.go]

mutual
/-- Every leaf path of an attribute list is non-empty. -/
theorem leaves_path_ne_nil : ∀ (attrs : List Attr) (p : List String × Value),
    p ∈ leaves attrs → p.1 ≠ []
  | [], p, hp => by simp [leaves] at hp
  | attr :: rest, p, hp => by
    simp only [leaves, List.mem_append] at hp
    cases hp with
    | inl h => exact leavesOf_path_ne_nil attr p h
    | inr h => exact leaves_path_ne_nil rest p h
/-- Every leaf path under an attribute is non-empty. -/
theorem leavesOf_path_ne_nil : ∀ (attr : Attr) (p : List String × Value),
    p ∈ leavesOf attr → p.1 ≠ []
  | .mk key (.group as), p, hp => by
    simp only [leavesOf, List.mem_map] at hp
    obtain ⟨q, _, rfl⟩ := hp
    simp
  | .mk key .zero, p, hp => by simp [leavesOf] at hp; simp [hp]
  | .mk key (.string _), p, hp => by simp [leavesOf] at hp; simp [hp]
  | .mk key (.int64 _), p, hp => by simp [leavesOf] at hp; simp [hp]
  | .mk key (.bool _), p, hp => by simp [leavesOf] at hp; simp [hp]
end

/-- Below a group `key`, the field of a leaf is named through the longer path. -/
theorem leafFieldUnder_group (base key : String) (p : List String × Value) (hp : p.1 ≠ []) :
    leafFieldUnder (base ++ key ++ ".") p = leafFieldUnder base (key :: p.1, p.2) := by
  obtain ⟨path, v⟩ := p
  cases path with
  | nil => exact absurd rfl hp
  | cons k2 rest =>
    simp only [leafFieldUnder, dotted_cons_cons, String.append_assoc]

mutual
/-- The loop of `populateEmbedFields` appends the fields of the leaves, in order. -/
theorem populateEmbedFields_eq : ∀ (attrs : List Attr) (base : String) (eb : EmbedBuilder),
    populateEmbedFields base attrs eb =
      { eb with Fields := eb.Fields ++ (leaves attrs).map (leafFieldUnder base) }
  | [], base, eb => by simp [populateEmbedFields, leaves]
  | attr :: rest, base, eb => by
    rw [populateEmbedFields, populateEmbedField_eq attr base eb,
      populateEmbedFields_eq rest base]
    simp [leaves, List.append_assoc]
/-- One step of the loop appends the fields of the leaves under the attribute. -/
theorem populateEmbedField_eq : ∀ (attr : Attr) (base : String) (eb : EmbedBuilder),
    populateEmbedField base attr eb =
      { eb with Fields := eb.Fields ++ (leavesOf attr).map (leafFieldUnder base) }
  | .mk key (.group as), base, eb => by
    rw [populateEmbedField, populateEmbedFields_eq as (base ++ key ++ ".") eb]
    have hmap : (leaves as).map (leafFieldUnder (base ++ key ++ ".")) =
        (leavesOf (.mk key (.group as))).map (leafFieldUnder base) := by
      simp only [leavesOf, List.map_map]
      apply List.map_congr_left
      intro p hp
      exact leafFieldUnder_group base key p (leaves_path_ne_nil as p hp)
    rw [hmap]
  | .mk key .zero, base, eb => by
    simp [populateEmbedField, leavesOf, leafFieldUnder, EmbedBuilder.AddField, dotted_singleton]
  | .mk key (.string _), base, eb => by
    simp [populateEmbedField, leavesOf, leafFieldUnder, EmbedBuilder.AddField, dotted_singleton]
  | .mk key (.int64 _), base, eb => by
    simp [populateEmbedField, leavesOf, leafFieldUnder, EmbedBuilder.AddField, dotted_singleton]
  | .mk key (.bool _), base, eb => by
    simp [populateEmbedField, leavesOf, leafFieldUnder, EmbedBuilder.AddField, dotted_singleton]
end

/-- With the empty base the field of a leaf is the one the specification gives it. -/
theorem leafFieldUnder_empty : leafFieldUnder "" = leafField := by
  funext p
  simp [leafFieldUnder, leafField]

/-- A non-group attribute is its own single leaf. -/
theorem leavesOf_scalar (key : String) (v : Value) (hv : v.isGroup = false) :
    leavesOf (.mk key v) = [([key], v)] := by
  cases v <;> simp [leavesOf, Value.isGroup] at hv ⊢

/-- The leaves under a group are the leaves of its members, the key put in front. -/
theorem leavesOf_group (key : String) (as : List Attr) :
    leavesOf (.mk key (.group as)) = (leaves as).map (fun p => (key :: p.1, p.2)) := by
  simp [leavesOf]

/-- The leaves of a list without groups are its attributes, in order. -/
theorem leaves_flat (attrs : List Attr) (hflat : ∀ a ∈ attrs, a.Value.isGroup = false) :
    leaves attrs = attrs.map (fun a => ([a.Key], a.Value)) := by
  induction attrs with
  | nil => simp [leaves]
  | cons a rest ih =>
    obtain ⟨key, v⟩ := a
    have hv : v.isGroup = false := by
      simpa [Attr.Value] using hflat (.mk key v) (by simp)
    rw [leaves, leavesOf_scalar key v hv, ih (fun b hb => hflat b (by simp [hb]))]
    simp [Attr.Key, Attr.Value]

/-- The fields of the embed the default builder returns. -/
theorem fields_of_defaultBuildEmbed (record : Record) (attrs : List Attr) (eb : EmbedBuilder) :
    (defaultBuildEmbed record attrs eb).Fields = eb.Fields ++ (leaves attrs).map leafField := by
  simp [defaultBuildEmbed, populateEmbedFields_eq, leafFieldUnder_empty, EmbedBuilder.Build,
    EmbedBuilder.SetTimestamp, EmbedBuilder.SetDescription, EmbedBuilder.SetTitle]

/-- C4. The fields the default builder adds to the draft are the fields of the non-group
leaves of the attribute list, depth-first and left to right: the name is the keys of the
path joined with dots, the value the rendering of the leaf, inline false. Their number is
the number of leaves; a list without groups gives one field per attribute, in order, named
by the key; and a group `req` holding a group `request` holding `user_id` and `payload`
gives the names `req.request.user_id` and `req.request.payload`. -/
theorem defaultBuildEmbed_fields_are_leaves (record : Record) (attrs : List Attr)
    (eb : EmbedBuilder) :
    ((defaultBuildEmbed record attrs eb).Fields = eb.Fields ++ (leaves attrs).map leafField) ∧
      ((defaultBuildEmbed record attrs eb).Fields.length =
        eb.Fields.length + (leaves attrs).length) ∧
      ((∀ a ∈ attrs, a.Value.isGroup = false) →
        (defaultBuildEmbed record attrs eb).Fields =
          eb.Fields ++ attrs.map (fun a =>
            { Name := a.Key, Value := ValueToString a.Value, Inline := some false })) ∧
      (∀ u p : Value, u.isGroup = false → p.isGroup = false →
        (defaultBuildEmbed record
            [.mk "req" (.group [.mk "request" (.group [.mk "user_id" u, .mk "payload" p])])]
            eb).Fields =
          eb.Fields ++
            [{ Name := "req.request.user_id", Value := ValueToString u, Inline := some false },
             { Name := "req.request.payload", Value := ValueToString p, Inline := some false }]) := by
  refine ⟨fields_of_defaultBuildEmbed record attrs eb, ?_, ?_, ?_⟩
  · simp [fields_of_defaultBuildEmbed]
  · intro hflat
    rw [fields_of_defaultBuildEmbed, leaves_flat attrs hflat]
    simp [leafField, dotted_singleton]
  · intro u p hu hp
    rw [fields_of_defaultBuildEmbed]
    simp only [leaves, leavesOf_group, leavesOf_scalar _ u hu, leavesOf_scalar _ p hp]
    simp [leafField, dotted, String.intercalate, String.intercalate.go]

/-- Writing cell `n` and reading the first `n + 1` cells gives the old `n` and the new one. -/
theorem take_succ_set {α : Type} (a : List α) (x : α) (n : Nat) (h : n < a.length) :
    (a.set n x).take (n + 1) = a.take n ++ [x] := by
  induction a generalizing n with
  | nil => simp at h
  | cons b a ih =>
    cases n with
    | zero => simp
    | succ n => simp at h; simp [ih n h]

/-- Writing cell `n` leaves the first `n` cells as they were. -/
theorem take_set_same {α : Type} (a : List α) (x : α) (n : Nat) :
    (a.set n x).take n = a.take n := by
  induction a generalizing n with
  | nil => simp
  | cons b a ih =>
    cases n with
    | zero => simp
    | succ n => simp [ih n]

/-- A sound slice of non-zero capacity has an allocated backing array of that length. -/
theorem SliceOK.backing {arrays : List (List String)} {s : StrSlice} (hok : SliceOK arrays s)
    (hc : s.cap ≠ 0) :
    ∃ a, arrays[s.arr]? = some a ∧ a.length = s.cap ∧ s.arr < arrays.length := by
  rcases hok.2 with h0 | harr
  · exact absurd h0 hc
  · simp only [List.get?_eq_getElem?, Option.map_eq_some'] at harr
    obtain ⟨a, ha, hlen⟩ := harr
    refine ⟨a, ha, hlen, ?_⟩
    rcases Nat.lt_or_ge s.arr arrays.length with h | h
    · exact h
    · rw [List.getElem?_eq_none h] at ha
      cases ha

/-- A sound slice reads as many elements as its length. -/
theorem readSlice_length {arrays : List (List String)} {s : StrSlice} (hok : SliceOK arrays s) :
    (readSlice arrays s).length = s.len := by
  by_cases hc : s.cap = 0
  · have : s.len = 0 := by have := hok.1; omega
    simp [readSlice, this]
  · obtain ⟨a, ha, hal, _⟩ := hok.backing hc
    have := hok.1
    simp only [readSlice, List.getD_eq_getElem?_getD, ha, Option.getD_some, List.length_take]
    omega

/-- An element appended to a sound slice is read back after the old elements. -/
theorem readSlice_goAppend (arrays : List (List String)) (s : StrSlice) (x : String)
    (hok : SliceOK arrays s) :
    readSlice (goAppend arrays s x).1 (goAppend arrays s x).2 = readSlice arrays s ++ [x] := by
  unfold goAppend
  by_cases hlt : s.len < s.cap
  · simp only [if_pos hlt]
    obtain ⟨a, ha, hal, hidx⟩ := hok.backing (by omega)
    simp only [readSlice, List.getD_eq_getElem?_getD, ha, Option.getD_some]
    rw [List.getElem?_set_self hidx]
    simp only [Option.getD_some]
    exact take_succ_set a x s.len (by omega)
  · simp only [if_neg hlt]
    have hlen := readSlice_length hok
    have hnew : readSlice (arrays ++
        [readSlice arrays s ++ x :: List.replicate (nextslicecap s.cap - (s.len + 1)) ""])
        { arr := arrays.length, len := s.len + 1, cap := nextslicecap s.cap } =
        (readSlice arrays s ++ x :: List.replicate (nextslicecap s.cap - (s.len + 1)) "").take
          (s.len + 1) := by
      simp [readSlice, List.getD_eq_getElem?_getD]
    rw [hnew, List.take_append_eq_append_take, hlen]
    simp [List.take_of_length_le, hlen]

/-- Appending through a sound slice leaves what that slice itself reads unchanged. -/
theorem readSlice_goAppend_frame (arrays : List (List String)) (s : StrSlice) (x : String)
    (hok : SliceOK arrays s) :
    readSlice (goAppend arrays s x).1 s = readSlice arrays s := by
  unfold goAppend
  by_cases hlt : s.len < s.cap
  · simp only [if_pos hlt]
    obtain ⟨a, ha, hal, hidx⟩ := hok.backing (by omega)
    simp only [readSlice, List.getD_eq_getElem?_getD, ha, Option.getD_some]
    rw [List.getElem?_set_self hidx]
    simp only [Option.getD_some]
    exact take_set_same a x s.len
  · simp only [if_neg hlt]
    by_cases hc : s.cap = 0
    · have : s.len = 0 := by have := hok.1; omega
      simp [readSlice, this]
    · obtain ⟨a, ha, hal, hidx⟩ := hok.backing hc
      simp only [readSlice, List.getD_eq_getElem?_getD]
      rw [List.getElem?_append_left hidx]

/-- The leaves of a concatenation. -/
theorem leaves_append (as bs : List Attr) : leaves (as ++ bs) = leaves as ++ leaves bs := by
  induction as with
  | nil => simp [leaves]
  | cons a rest ih => simp [leaves, ih]

/-- An attribute whose value is an empty group has no leaves. -/
theorem leavesOf_emptyGroup (a : Attr) (h : a.Value.isEmptyGroup = true) : leavesOf a = [] := by
  obtain ⟨key, v⟩ := a
  cases v with
  | group as =>
    cases as with
    | nil => simp [leavesOf, leaves]
    | cons b bs => simp [Attr.Value, Value.isEmptyGroup] at h
  | zero => simp [Attr.Value, Value.isEmptyGroup] at h
  | string _ => simp [Attr.Value, Value.isEmptyGroup] at h
  | int64 _ => simp [Attr.Value, Value.isEmptyGroup] at h
  | bool _ => simp [Attr.Value, Value.isEmptyGroup] at h

/-- Removing the empty groups of a list, as `slog.GroupValue` does, keeps its leaves. -/
theorem leaves_filter_emptyGroup (as : List Attr) :
    leaves (as.filter (fun a => !a.Value.isEmptyGroup)) = leaves as := by
  induction as with
  | nil => simp [leaves]
  | cons a rest ih =>
    by_cases h : a.Value.isEmptyGroup = true
    · simp [List.filter, h, leaves, ih, leavesOf_emptyGroup a h]
    · simp only [Bool.not_eq_true] at h
      simp [List.filter, h, leaves, ih]

/-- Putting a non-empty key in front of the paths commutes with keeping the leaves. -/
theorem filter_leafKept_map_cons (key : String) (hk : key ≠ "")
    (l : List (List String × Value)) :
    (l.map (fun p => (key :: p.1, p.2))).filter leafKept =
      (l.filter leafKept).map (fun p => (key :: p.1, p.2)) := by
  induction l with
  | nil => simp
  | cons p rest ih =>
    have hp : leafKept (key :: p.1, p.2) = leafKept p := by
      simp [leafKept, hk]
    simp only [List.map_cons, List.filter_cons, hp, ih]
    cases leafKept p <;> simp

/-- Under an empty key no leaf is kept. -/
theorem filter_leafKept_map_empty (l : List (List String × Value)) :
    (l.map (fun p => ("" :: p.1, p.2))).filter leafKept = [] := by
  induction l with
  | nil => simp
  | cons p rest ih => simp [List.filter_cons, leafKept, ih]

mutual
/-- The leaves left by `RemoveEmptyAttrs` are the kept leaves, in order. -/
theorem leaves_RemoveEmptyAttrs : ∀ (attrs : List Attr),
    leaves (RemoveEmptyAttrs attrs) = (leaves attrs).filter leafKept
  | [] => by simp [RemoveEmptyAttrs, leaves]
  | attr :: rest => by
    have h1 := leavesOf_RemoveEmptyAttr attr
    have h2 := leaves_RemoveEmptyAttrs rest
    rw [RemoveEmptyAttrs]
    cases hr : RemoveEmptyAttr attr with
    | none =>
      rw [hr] at h1
      simp only [leavesOfKept] at h1
      simp [leaves, h2, ← h1]
    | some kept =>
      rw [hr] at h1
      simp only [leavesOfKept] at h1
      simp [leaves, h2, ← h1]
/-- The leaves under what `RemoveEmptyAttr` leaves of an attribute are its kept leaves. -/
theorem leavesOf_RemoveEmptyAttr : ∀ (attr : Attr),
    leavesOfKept (RemoveEmptyAttr attr) = (leavesOf attr).filter leafKept
  | .mk key (.group as) => by
    have ih := leaves_RemoveEmptyAttrs as
    rw [RemoveEmptyAttr, leavesOf_group]
    by_cases hk : key = ""
    · subst hk
      simp [leavesOfKept, filter_leafKept_map_empty]
    · rw [if_neg hk, filter_leafKept_map_cons key hk, ← ih]
      by_cases he : (RemoveEmptyAttrs as).isEmpty = true
      · rw [if_pos he]
        have : RemoveEmptyAttrs as = [] := by simpa using he
        simp [leavesOfKept, this, leaves]
      · rw [if_neg he]
        simp [leavesOfKept, GroupValue, leavesOf_group, leaves_filter_emptyGroup]
  | .mk key .zero => by
    by_cases hk : key = "" <;> simp [RemoveEmptyAttr, leavesOfKept, leavesOf, leafKept, hk,
      Value.isZero]
  | .mk key (.string _) => by
    by_cases hk : key = "" <;> simp [RemoveEmptyAttr, leavesOfKept, leavesOf, leafKept, hk,
      Value.isZero]
  | .mk key (.int64 _) => by
    by_cases hk : key = "" <;> simp [RemoveEmptyAttr, leavesOfKept, leavesOf, leafKept, hk,
      Value.isZero]
  | .mk key (.bool _) => by
    by_cases hk : key = "" <;> simp [RemoveEmptyAttr, leavesOfKept, leavesOf, leafKept, hk,
      Value.isZero]
end

/-- What `WithGroup` returns for a non-empty name on an allocated handler. -/
theorem WithGroup_eq (m : Mem) (p : Ptr) (h : DiscordHandler) (name : String)
    (hp : m.objs.get? p = some h) (hn : name ≠ "") :
    WithGroup m p name =
      some { mem :=
               { objs := m.objs ++
                   [{ h with groups := (goAppend m.arrays h.groups name).2,
                             Handler := h.Handler.map (fun s => s.WithGroup name) }],
                 arrays := (goAppend m.arrays h.groups name).1 },
             ptr := m.objs.length,
             events := match h.Handler with
               | none => []
               | some _ => [.HandlerWithGroup name] } := by
  unfold WithGroup
  rw [if_neg hn, hp]
  cases hH : h.Handler <;> simp [hH]

/-- What `WithAttrs` returns on an allocated handler. -/
theorem WithAttrs_eq (m : Mem) (p : Ptr) (h : DiscordHandler) (attrs : List Attr)
    (hp : m.objs.get? p = some h) :
    WithAttrs m p attrs =
      some { mem :=
               { m with objs := m.objs ++
                   [{ h with attrs := AppendAttrsToGroup (h.groupNames m) h.attrs attrs,
                             Handler := h.Handler.map (fun s => s.WithAttrs attrs) }] },
             ptr := m.objs.length,
             events := match h.Handler with
               | none => []
               | some _ => [.HandlerWithAttrs attrs] } := by
  unfold WithAttrs
  rw [hp]
  cases hH : h.Handler <;> simp [hH]

/-- An allocated handler is one of the heap's objects. -/
theorem mem_objs_of_get {m : Mem} {p : Ptr} {h : DiscordHandler}
    (hp : m.objs.get? p = some h) : h ∈ m.objs := by
  exact List.get?_mem hp

/-- A scalar attribute wrapped in groups has one leaf, under the groups and its key. -/
theorem leavesOf_wrapInGroups (a : Attr) (ha : a.Value.isGroup = false) :
    ∀ gs : List String, leavesOf (wrapInGroups gs a) = [(gs ++ [a.Key], a.Value)]
  | [] => by
    obtain ⟨key, v⟩ := a
    simpa [wrapInGroups, Attr.Key, Attr.Value] using leavesOf_scalar key v ha
  | g :: gs => by
    rw [wrapInGroups, GroupValue, leavesOf_group, leaves_filter_emptyGroup, leaves,
      leavesOf_wrapInGroups a ha gs]
    simp [leaves]

/-- The record's scalar attributes wrapped in groups: one leaf each, in order. -/
theorem leaves_map_wrapInGroups (gs : List String) (attrs : List Attr)
    (ha : ∀ a ∈ attrs, a.Value.isGroup = false) :
    leaves (attrs.map (wrapInGroups gs)) = attrs.map (fun a => (gs ++ [a.Key], a.Value)) := by
  induction attrs with
  | nil => simp [leaves]
  | cons a rest ih =>
    rw [List.map_cons, leaves, leavesOf_wrapInGroups a (ha a (by simp)) gs,
      ih (fun b hb => ha b (by simp [hb]))]
    simp

/-- The fields the default builder gives the record's attributes when the groups and the
keys are non-empty and no value is the zero value. -/
theorem record_leaves_kept (gs : List String) (attrs : List Attr)
    (hgs : ∀ g ∈ gs, g ≠ "")
    (ha : ∀ a ∈ attrs, a.Value.isGroup = false ∧ a.Key ≠ "" ∧ a.Value.isZero = false) :
    ((leaves (attrs.map (wrapInGroups gs))).filter leafKept).map leafField =
      attrs.map (groupedField gs) := by
  rw [leaves_map_wrapInGroups gs attrs (fun a h => (ha a h).1)]
  induction attrs with
  | nil => simp
  | cons a rest ih =>
    have hk : leafKept (gs ++ [a.Key], a.Value) = true := by
      have h1 := (ha a (by simp)).2
      simp only [leafKept, List.all_append, List.all_cons, List.all_nil, Bool.and_true,
        Bool.and_eq_true, List.all_eq_true, decide_eq_true_eq, Bool.not_eq_true']
      exact ⟨⟨hgs, h1.1⟩, h1.2⟩
    simp only [List.map_cons, List.filter_cons, hk, if_true]
    rw [ih (fun b hb => ha b (by simp [hb]))]
    simp [leafField, groupedField]

/-- The fields of the embed `logDiscord` sends through the default builder. -/
theorem logDiscord_default_fields (h : DiscordHandler) (m : Mem) (record : Record)
    (c : Client) (hb : h.BuildEmbed = some defaultBuildEmbed) (hc : h.Client = some c) :
    ∃ embed, (h.logDiscord m record).sent = [[embed]] ∧
      embed.Fields =
        ((leaves h.attrs).filter leafKept).map leafField ++
          ((leaves (record.attrs.map (wrapInGroups (h.groupNames m)))).filter leafKept).map
            leafField := by
  refine ⟨defaultBuildEmbed record
    (RemoveEmptyAttrs (AppendRecordAttrsToAttrs h.attrs (h.groupNames m) record))
    (NewEmbedBuilder.SetColor (h.ColorMap.get record.Level)), ?_, ?_⟩
  · rw [logDiscord_ready h m record defaultBuildEmbed c hb hc]
    simp only [Run.sent, List.filterMap_cons, Event.sent, List.filterMap_nil]
  · rw [fields_of_defaultBuildEmbed, leaves_RemoveEmptyAttrs, AppendRecordAttrsToAttrs,
      leaves_append]
    simp [NewEmbedBuilder, EmbedBuilder.SetColor]

/-- An item just merged by `uniqStep` is in the result. -/
theorem mem_uniqStep_self (result : List Attr) (item : Attr) : item ∈ uniqStep result item := by
  unfold uniqStep
  cases hf : result.findIdx? (fun r => r.Key == item.Key) with
  | none => simp
  | some index =>
    obtain ⟨hlt, _⟩ := List.findIdx?_eq_some_iff_getElem.mp hf
    exact List.mem_set result index hlt item

/-- An item with another key stays in the result of `uniqStep`. -/
theorem mem_uniqStep_of_mem (result : List Attr) (item b : Attr) (hb : b ∈ result)
    (hk : item.Key ≠ b.Key) : b ∈ uniqStep result item := by
  unfold uniqStep
  cases hf : result.findIdx? (fun r => r.Key == item.Key) with
  | none => simp [hb]
  | some index =>
    obtain ⟨hlt, hkey, _⟩ := List.findIdx?_eq_some_iff_getElem.mp hf
    obtain ⟨n, hn⟩ := List.mem_iff_getElem?.mp hb
    have hne : index ≠ n := by
      intro he
      subst he
      rw [List.getElem?_eq_getElem hlt] at hn
      cases hn
      simp only [beq_iff_eq] at hkey
      exact hk hkey.symm
    simp only
    refine List.mem_iff_getElem?.mpr ⟨n, ?_⟩
    rw [List.getElem?_set_ne hne, hn]

/-- An item of the accumulator stays through the fold when no later key equals its key. -/
theorem mem_foldl_uniqStep_of_mem (l : List Attr) :
    ∀ (acc : List Attr) (b : Attr), b ∈ acc → (∀ x ∈ l, x.Key ≠ b.Key) →
      b ∈ l.foldl uniqStep acc := by
  induction l with
  | nil => intro acc b hb _; simpa using hb
  | cons x xs ih =>
    intro acc b hb hk
    simp only [List.foldl_cons]
    exact ih _ b (mem_uniqStep_of_mem acc x b hb (hk x (by simp)))
      (fun y hy => hk y (by simp [hy]))

/-- Every item of a list with distinct keys is in the result of the fold. -/
theorem mem_foldl_uniqStep (l : List Attr) :
    ∀ (acc : List Attr) (a : Attr), (l.map Attr.Key).Nodup → a ∈ l →
      a ∈ l.foldl uniqStep acc := by
  induction l with
  | nil => intro acc a _ ha; simp at ha
  | cons x xs ih =>
    intro acc a hnd ha
    simp only [List.map_cons, List.nodup_cons] at hnd
    simp only [List.foldl_cons]
    rcases List.mem_cons.mp ha with h | h
    · subst h
      refine mem_foldl_uniqStep_of_mem xs _ a (mem_uniqStep_self acc a) ?_
      intro y hy hkey
      exact hnd.1 (hkey ▸ List.mem_map_of_mem Attr.Key hy)
    · exact ih _ a hnd.2 h

/-- The leaves under a member of a list are leaves of the list. -/
theorem mem_leaves_of_mem (attrs : List Attr) (a : Attr) (q : List String × Value)
    (ha : a ∈ attrs) (hq : q ∈ leavesOf a) : q ∈ leaves attrs := by
  induction attrs with
  | nil => simp at ha
  | cons x rest ih =>
    rw [leaves, List.mem_append]
    rcases List.mem_cons.mp ha with h | h
    · exact Or.inl (h ▸ hq)
    · exact Or.inr (ih h)

/-- The attributes `AppendAttrsToGroup` adds are leaves under the group path. -/
theorem mem_leaves_AppendAttrsToGroup (newAttrs : List Attr)
    (hnd : (newAttrs.map Attr.Key).Nodup) (hsc : ∀ a ∈ newAttrs, a.Value.isGroup = false) :
    ∀ (gs : List String) (actualAttrs : List Attr) (a : Attr), a ∈ newAttrs →
      (gs ++ [a.Key], a.Value) ∈ leaves (AppendAttrsToGroup gs actualAttrs newAttrs) := by
  intro gs
  induction gs with
  | nil =>
    intro actualAttrs a ha
    have hmem : a ∈ UniqAttrs (actualAttrs ++ newAttrs) := by
      simp only [UniqAttrs, List.foldl_append]
      exact mem_foldl_uniqStep newAttrs _ a hnd ha
    refine mem_leaves_of_mem _ a _ hmem ?_
    obtain ⟨key, v⟩ := a
    have := leavesOf_scalar key v (hsc _ ha)
    simp [this, Attr.Key, Attr.Value]
  | cons g rest ih =>
    intro actualAttrs a ha
    rw [AppendAttrsToGroup]
    cases hf : actualAttrs.findIdx? (fun a => a.Key == g && a.Value.isGroup) with
    | some i =>
      obtain ⟨hlt, _⟩ := List.findIdx?_eq_some_iff_getElem.mp hf
      simp only
      refine mem_leaves_of_mem _ _ _ (List.mem_set actualAttrs i hlt _) ?_
      rw [Group, GroupValue, leavesOf_group, leaves_filter_emptyGroup]
      exact List.mem_map.mpr ⟨_, ih _ a ha, rfl⟩
    | none =>
      simp only
      have hmem : Group g (AppendAttrsToGroup rest [] newAttrs) ∈
          UniqAttrs (actualAttrs ++ [Group g (AppendAttrsToGroup rest [] newAttrs)]) := by
        simp only [UniqAttrs, List.foldl_append, List.foldl_cons, List.foldl_nil]
        exact mem_uniqStep_self _ _
      refine mem_leaves_of_mem _ _ _ hmem ?_
      rw [Group, GroupValue, leavesOf_group, leaves_filter_emptyGroup]
      exact List.mem_map.mpr ⟨_, ih _ a ha, rfl⟩

/-- C5. For a handler with a builder, a client and accumulated (non-empty) group names
`g1..gn`, and a record whose attributes are scalars with non-empty keys and non-nil values,
the message of the default builder ends with one field per record attribute, in order,
named `g1. ... .gn.key` (the bare key when there is no group), after the fields of the
handler's own attributes. After `WithGroup(g)` the fields of the handler's own attributes
are the same, not prefixed by `g`, and the record's fields are named under `g1..gn, g`.
Attributes added by `WithAttrs` (scalars with distinct non-empty keys and non-nil values)
under the groups `g1..gn` get fields named `g1. ... .gn.key` as well.
The handler of custom_color_map.go, built by `WithAttrs([env])` then `WithGroup("request")`,
sends the fields `env`, `request.payload`, `request.user_id`. -/
theorem record_fields_named_under_groups (m : Mem) (p : Ptr) (h : DiscordHandler)
    (c : Client) (record : Record) (g : String) (hwf : m.WF) (hp : m.objs.get? p = some h)
    (hb : h.BuildEmbed = some defaultBuildEmbed) (hc : h.Client = some c)
    (hgs : ∀ x ∈ h.groupNames m, x ≠ "") (hg : g ≠ "")
    (ha : ∀ a ∈ record.attrs, a.Value.isGroup = false ∧ a.Key ≠ "" ∧ a.Value.isZero = false) :
    (∃ embed, sentAt m p record = some [[embed]] ∧
        embed.Fields = ((leaves h.attrs).filter leafKept).map leafField ++
          record.attrs.map (groupedField (h.groupNames m))) ∧
      (h.groupNames m = [] → ∀ a : Attr, groupedField (h.groupNames m) a =
        { Name := a.Key, Value := ValueToString a.Value, Inline := some false }) ∧
      (∃ r embed, WithGroup m p g = some r ∧ sentAt r.mem r.ptr record = some [[embed]] ∧
        embed.Fields = ((leaves h.attrs).filter leafKept).map leafField ++
          record.attrs.map (groupedField (h.groupNames m ++ [g]))) ∧
      (∀ newAttrs : List Attr, (newAttrs.map Attr.Key).Nodup →
        (∀ a ∈ newAttrs, a.Value.isGroup = false ∧ a.Key ≠ "" ∧ a.Value.isZero = false) →
        ∃ r embed, WithAttrs m p newAttrs = some r ∧
          sentAt r.mem r.ptr record = some [[embed]] ∧
          ∀ a ∈ newAttrs, groupedField (h.groupNames m) a ∈ embed.Fields) ∧
      (colorMapExample.bind (fun r => sentAt r.mem r.ptr colorMapRecord) =
        some [[{ Title := "INFO", Description := "incoming request",
                 Timestamp := some 1700000000, Color := 0xA020F0,
                 Fields := [{ Name := "env", Value := "local", Inline := some false },
                   { Name := "request.payload", Value := "some payload", Inline := some false },
                   { Name := "request.user_id", Value := "some_user_id",
                     Inline := some false }] }]]) := by
  refine ⟨?_, ?_, ?_, ?_, by decide⟩
  rotate_left 3
  · intro newAttrs hnd hnew
    rw [WithAttrs_eq m p h newAttrs hp]
    obtain ⟨embed, hsent, hfields⟩ := logDiscord_default_fields
      { h with attrs := AppendAttrsToGroup (h.groupNames m) h.attrs newAttrs,
               Handler := h.Handler.map (fun s => s.WithAttrs newAttrs) }
      { m with objs := m.objs ++
          [{ h with attrs := AppendAttrsToGroup (h.groupNames m) h.attrs newAttrs,
                    Handler := h.Handler.map (fun s => s.WithAttrs newAttrs) }] } record c hb hc
    refine ⟨_, embed, rfl, ?_, ?_⟩
    · simp only [sentAt, List.get?_eq_getElem?, List.getElem?_concat_length, Option.map_some']
      rw [hsent]
    · intro a ha
      rw [hfields]
      refine List.mem_append_left _ (List.mem_map.mpr ⟨(h.groupNames m ++ [a.Key], a.Value), ?_, rfl⟩)
      refine List.mem_filter.mpr ⟨mem_leaves_AppendAttrsToGroup newAttrs hnd
        (fun b hb => (hnew b hb).1) (h.groupNames m) h.attrs a ha, ?_⟩
      have h1 := (hnew a ha).2
      simp only [leafKept, List.all_append, List.all_cons, List.all_nil, Bool.and_true,
        Bool.and_eq_true, List.all_eq_true, decide_eq_true_eq, Bool.not_eq_true']
      exact ⟨⟨hgs, h1.1⟩, h1.2⟩
  · obtain ⟨embed, hsent, hfields⟩ := logDiscord_default_fields h m record c hb hc
    refine ⟨embed, by rw [sentAt, hp, Option.map_some', hsent], ?_⟩
    rw [hfields, record_leaves_kept (h.groupNames m) record.attrs hgs ha]
  · intro hnil a
    simp [groupedField, hnil, dotted_singleton]
  · rw [WithGroup_eq m p h g hp hg]
    have hok : SliceOK m.arrays h.groups := hwf h (mem_objs_of_get hp)
    have hnames : DiscordHandler.groupNames
        { h with groups := (goAppend m.arrays h.groups g).2,
                 Handler := h.Handler.map (fun s => s.WithGroup g) }
        { objs := m.objs ++
            [{ h with groups := (goAppend m.arrays h.groups g).2,
                      Handler := h.Handler.map (fun s => s.WithGroup g) }],
          arrays := (goAppend m.arrays h.groups g).1 } = h.groupNames m ++ [g] := by
      simp only [DiscordHandler.groupNames]
      exact readSlice_goAppend m.arrays h.groups g hok
    obtain ⟨embed, hsent, hfields⟩ := logDiscord_default_fields
      { h with groups := (goAppend m.arrays h.groups g).2,
               Handler := h.Handler.map (fun s => s.WithGroup g) }
      { objs := m.objs ++
          [{ h with groups := (goAppend m.arrays h.groups g).2,
                    Handler := h.Handler.map (fun s => s.WithGroup g) }],
        arrays := (goAppend m.arrays h.groups g).1 } record c hb hc
    refine ⟨_, embed, rfl, ?_, ?_⟩
    · simp only [sentAt, List.get?_eq_getElem?, List.getElem?_concat_length, Option.map_some']
      rw [hsent]
    · rw [hfields, hnames, record_leaves_kept (h.groupNames m ++ [g]) record.attrs ?_ ha]
      intro x hx
      rcases List.mem_append.mp hx with h1 | h1
      · exact hgs x h1
      · simp only [List.mem_singleton] at h1
        exact h1 ▸ hg

/-- C5 at the handler of custom_color_map.go before its chaining, with one more group
added: the record's fields are named under `request`. -/
theorem record_fields_named_under_groups_witness :
    ∃ r embed,
      WithGroup (NewDiscordHandler (fun _ _ _ => .ok (fixedClient none)) Mem.empty
          "webhook_url" [WithSyncMode true]).1 0 "request" = some r ∧
        sentAt r.mem r.ptr colorMapRecord = some [[embed]] ∧
        embed.Fields = [{ Name := "request.payload", Value := "some payload",
                          Inline := some false },
                        { Name := "request.user_id", Value := "some_user_id",
                          Inline := some false }] := by
  have h := (record_fields_named_under_groups
    (NewDiscordHandler (fun _ _ _ => .ok (fixedClient none)) Mem.empty "webhook_url"
      [WithSyncMode true]).1 0
    (newHandler (fixedClient none) [WithSyncMode true]) (fixedClient none) colorMapRecord
    "request" (by decide) rfl rfl rfl (by decide) (by decide) (by decide)).2.2.1
  obtain ⟨r, embed, h1, h2, h3⟩ := h
  exact ⟨r, embed, h1, h2, by rw [h3]; decide⟩

mutual
/-- Where every group has a key, a leaf is kept exactly when it is kept on its own
account. -/
theorem leafKept_eq_own : ∀ (attrs : List Attr), groupsKeyed attrs = true →
    ∀ p ∈ leaves attrs, leafKept p = leafOwnKept p
  | [], _, p, hp => by simp [leaves] at hp
  | attr :: rest, hk, p, hp => by
    simp only [groupsKeyed, Bool.and_eq_true] at hk
    simp only [leaves, List.mem_append] at hp
    cases hp with
    | inl h => exact leafKeptOf_eq_own attr hk.1 p h
    | inr h => exact leafKept_eq_own rest hk.2 p h
/-- The same under one attribute. -/
theorem leafKeptOf_eq_own : ∀ (attr : Attr), groupKeyed attr = true →
    ∀ p ∈ leavesOf attr, leafKept p = leafOwnKept p
  | .mk key (.group as), hk, p, hp => by
    simp only [groupKeyed, Bool.and_eq_true, decide_eq_true_eq] at hk
    rw [leavesOf_group] at hp
    obtain ⟨q, hq, rfl⟩ := List.mem_map.mp hp
    have ih := leafKept_eq_own as hk.2 q hq
    have hne : q.1 ≠ [] := leaves_path_ne_nil as q hq
    obtain ⟨path, v⟩ := q
    cases path with
    | nil => exact absurd rfl hne
    | cons k ks =>
      simp only [leafKept, leafOwnKept, List.all_cons, List.getLast?_cons_cons] at ih ⊢
      simp only [← ih, hk.1, ne_eq, not_false_eq_true, decide_True, Bool.true_and]
  | .mk key .zero, _, p, hp => by
    simp only [leavesOf, List.mem_singleton] at hp
    subst hp
    simp [leafKept, leafOwnKept]
  | .mk key (.string _), _, p, hp => by
    simp only [leavesOf, List.mem_singleton] at hp
    subst hp
    simp [leafKept, leafOwnKept]
  | .mk key (.int64 _), _, p, hp => by
    simp only [leavesOf, List.mem_singleton] at hp
    subst hp
    simp [leafKept, leafOwnKept]
  | .mk key (.bool _), _, p, hp => by
    simp only [leavesOf, List.mem_singleton] at hp
    subst hp
    simp [leafKept, leafOwnKept]
end

/-- In a list with one entry per key, the lookup of a key finds its entry. -/
theorem lookup_of_mem_nodup (es : List (Level × Int)) (l : Level) (color : Int)
    (hnd : (es.map Prod.fst).Nodup) (hmem : (l, color) ∈ es) : es.lookup l = some color := by
  induction es with
  | nil => simp at hmem
  | cons e rest ih =>
    obtain ⟨k, v⟩ := e
    simp only [List.map_cons, List.nodup_cons] at hnd
    by_cases hk : l = k
    · subst hk
      rcases List.mem_cons.mp hmem with h | h
      · cases h
        simp [List.lookup]
      · exact absurd (List.mem_map_of_mem Prod.fst h) hnd.1
    · rcases List.mem_cons.mp hmem with h | h
      · cases h
        exact absurd rfl hk
      · have hne : (l == k) = false := by simpa using hk
        simp only [List.lookup, hne]
        exact ih hnd.2 h

/-- The lookup of a key that no entry has finds nothing. -/
theorem lookup_of_not_mem (es : List (Level × Int)) (l : Level)
    (hl : l ∉ es.map Prod.fst) : es.lookup l = none := by
  induction es with
  | nil => simp [List.lookup]
  | cons e rest ih =>
    obtain ⟨k, v⟩ := e
    simp only [List.map_cons, List.mem_cons, not_or] at hl
    have hne : (l == k) = false := by simpa using hl.1
    simp only [List.lookup, hne]
    exact ih hl.2

/-- C7. The draft handed to the builder is the first call `logDiscord` makes, and its
color is the color map indexed by the record's level: the entry of the level when the
map has one, 0 when it has none, is empty or is nil. The default map gives 0x63C5DA for
Debug and Info, 0xFFA500 for Warn, 0xFF0000 for Error and 0 for every other level. -/
theorem draft_color_is_map_entry (h : DiscordHandler) (m : Mem) (record : Record)
    (f : BuildEmbed) (hb : h.BuildEmbed = some f) :
    (∃ attrs eb, (h.logDiscord m record).events.head? = some (.BuildEmbed record attrs eb) ∧
        eb.Color = h.ColorMap.get record.Level) ∧
      (∀ es color, h.ColorMap = some es → (es.map Prod.fst).Nodup →
        (record.Level, color) ∈ es → h.ColorMap.get record.Level = color) ∧
      (∀ es, h.ColorMap = some es → record.Level ∉ es.map Prod.fst →
        h.ColorMap.get record.Level = 0) ∧
      (h.ColorMap = some [] → h.ColorMap.get record.Level = 0) ∧
      (h.ColorMap = none → h.ColorMap.get record.Level = 0) ∧
      (DefaultColorMappings.get LevelDebug = 0x63C5DA ∧
        DefaultColorMappings.get LevelInfo = 0x63C5DA ∧
        DefaultColorMappings.get LevelWarn = 0xFFA500 ∧
        DefaultColorMappings.get LevelError = 0xFF0000 ∧
        DefaultColorMappings.get (LevelInfo + 1) = 0 ∧
        DefaultColorMappings.get (LevelError + 4) = 0 ∧
        ∀ l : Level, l ≠ LevelDebug → l ≠ LevelInfo → l ≠ LevelWarn → l ≠ LevelError →
          DefaultColorMappings.get l = 0) := by
  refine ⟨?_, ?_, ?_, ?_, ?_, by decide, by decide, by decide, by decide, by decide,
    by decide, ?_⟩
  · refine ⟨RemoveEmptyAttrs (AppendRecordAttrsToAttrs h.attrs (h.groupNames m) record),
      NewEmbedBuilder.SetColor (h.ColorMap.get record.Level), ?_, rfl⟩
    cases hc : h.Client <;> simp [DiscordHandler.logDiscord, hb, hc]
  · intro es color hes hnd hmem
    simp [ColorMap.get, hes, lookup_of_mem_nodup es record.Level color hnd hmem]
  · intro es hes hl
    simp [ColorMap.get, hes, lookup_of_not_mem es record.Level hl]
  · intro hes
    simp [ColorMap.get, hes, List.lookup]
  · intro hes
    simp [ColorMap.get, hes]
  · intro l h1 h2 h3 h4
    have hl : l ∉ ([(LevelDebug, 0x63C5DA), (LevelInfo, 0x63C5DA), (LevelWarn, 0xFFA500),
        (LevelError, 0xFF0000)] : List (Level × Int)).map Prod.fst := by
      simp [h1, h2, h3, h4]
    simp [DefaultColorMappings, ColorMap.get, lookup_of_not_mem _ l hl]

/-- C7 at the handler of custom_color_map.go's map (INFO mapped to purple): a record at
INFO gets the draft color 0xA020F0. -/
theorem draft_color_is_map_entry_witness :
    (newHandler (fixedClient none)
        [WithColorMap (some [(LevelInfo, 0xA020F0)])]).ColorMap.get
      (exampleRecord LevelInfo []).Level = 0xA020F0 :=
  (draft_color_is_map_entry
    (newHandler (fixedClient none) [WithColorMap (some [(LevelInfo, 0xA020F0)])]) Mem.empty
    (exampleRecord LevelInfo []) defaultBuildEmbed rfl).2.1
    [(LevelInfo, 0xA020F0)] 0xA020F0 rfl (by decide) (by decide)

/-- C8. The default builder returns an embed titled with the rendering of the record's
level ("ERROR" for Error), described by the record's message, stamped with the record's
time and colored as the draft was. With minimum WARN, synchronous mode and the default
color map, whatever the client answers, a record at ERROR with the attribute error=boom
is delivered once, titled "ERROR", colored 0xFF0000, with the one field (error, boom,
not inline), and a record at INFO makes no call at all and `Handle` returns nil. -/
theorem defaultBuildEmbed_title_description_color (record : Record) (attrs : List Attr)
    (eb : EmbedBuilder) :
    ((defaultBuildEmbed record attrs eb).Title = record.Level.String ∧
        (defaultBuildEmbed record attrs eb).Description = record.Message ∧
        (defaultBuildEmbed record attrs eb).Timestamp = some record.Time ∧
        (defaultBuildEmbed record attrs eb).Color = eb.Color) ∧
      Level.String LevelError = "ERROR" ∧
      (∀ (c : Client) (t : Time) (msg : String),
        ((newHandler c [WithMinLevel LevelWarn, WithSyncMode true]).Handle
            (newHeap c [WithMinLevel LevelWarn, WithSyncMode true]) 0
            { Time := t, Message := msg, Level := LevelError,
              attrs := [.mk "error" (.string "boom")] }).events.filterMap Event.sent =
          [[{ Title := "ERROR", Description := msg, Timestamp := some t, Color := 0xFF0000,
              Fields := [{ Name := "error", Value := "boom", Inline := some false }] }]] ∧
        ((newHandler c [WithMinLevel LevelWarn, WithSyncMode true]).Handle
            (newHeap c [WithMinLevel LevelWarn, WithSyncMode true]) 0
            { Time := t, Message := msg, Level := LevelError,
              attrs := [.mk "error" (.string "boom")] }).ret = some none) ∧
      (∀ (c : Client) (t : Time) (msg : String) (as : List Attr),
        ((newHandler c [WithMinLevel LevelWarn, WithSyncMode true]).Handle
            (newHeap c [WithMinLevel LevelWarn, WithSyncMode true]) 0
            { Time := t, Message := msg, Level := LevelInfo, attrs := as }).events = [] ∧
        ((newHandler c [WithMinLevel LevelWarn, WithSyncMode true]).Handle
            (newHeap c [WithMinLevel LevelWarn, WithSyncMode true]) 0
            { Time := t, Message := msg, Level := LevelInfo, attrs := as }).spawned = [] ∧
        ((newHandler c [WithMinLevel LevelWarn, WithSyncMode true]).Handle
            (newHeap c [WithMinLevel LevelWarn, WithSyncMode true]) 0
            { Time := t, Message := msg, Level := LevelInfo, attrs := as }).ret = some none) := by
  refine ⟨?_, by decide, ?_, ?_⟩
  · simp [defaultBuildEmbed, populateEmbedFields_eq, EmbedBuilder.Build,
      EmbedBuilder.SetTimestamp, EmbedBuilder.SetDescription, EmbedBuilder.SetTitle]
  · intro c t msg
    exact ⟨rfl, rfl⟩
  · intro c t msg as
    exact ⟨rfl, rfl, rfl⟩

/-- C9, as stated, fails: the attributes handed to the builder are not flattened. In the
custom_embed.go example the custom builder is called with `env` and two attributes keyed
`request` whose values are groups, and the embed it returns has fields named `env`,
`request`, `request`, not `request.payload` and `request.user_id`. -/
theorem builder_receives_nested_groups :
    (customEmbedExample.bind (fun r => builderAttrsAt r.mem r.ptr customEmbedRecord) =
        some [[("env", false), ("request", true), ("request", true)]]) ∧
      (customEmbedExample.bind (fun r => sentAt r.mem r.ptr customEmbedRecord) =
        some [[{ Title := "Custom Title - Level ERROR",
                 Description := "Custom Discription\nMsg: incoming request",
                 Timestamp := some 1700000000, Color := 0xE30B5C,
                 Fields := [{ Name := "env", Value := "local", Inline := some true },
                   { Name := "request", Value := "[payload=some payload]",
                     Inline := some true },
                   { Name := "request", Value := "[user_id=some_user_id]",
                     Inline := some true }] }]]) := by
  constructor <;> decide

/-- The loop of `customBuilder` changes the fields only. -/
theorem customFields_Color (attrs : List Attr) (builder : EmbedBuilder) :
    (customFields attrs builder).Color = builder.Color := by
  induction attrs generalizing builder with
  | nil => rfl
  | cons a rest ih => rw [customFields, ih]; rfl

/-- C9, amended. For a handler whose builder is `f` (as `WithEmbedBuilder` sets it) and
which holds a client, `logDiscord` calls `f` once, with the record, the merged attributes
(the handler's attributes, then each record attribute wrapped in the accumulated groups,
empty ones removed, groups still nested) and a draft in which only the color, taken from
the color map, is set; it then sends exactly the embed `f` returned. So a color `f` sets
is the color delivered: the custom builder of the example delivers 0xE30B5C at Error. -/
theorem delivered_is_builder_result (h : DiscordHandler) (m : Mem) (record : Record)
    (f : BuildEmbed) (c : Client) (hb : h.BuildEmbed = some f) (hc : h.Client = some c) :
    ((h.logDiscord m record).events =
        [.BuildEmbed record
            (RemoveEmptyAttrs (h.attrs ++ record.attrs.map (wrapInGroups (h.groupNames m))))
            { Title := "", Description := "", Timestamp := none,
              Color := h.ColorMap.get record.Level, Fields := [] },
          .CreateEmbeds
            [f record
              (RemoveEmptyAttrs (h.attrs ++ record.attrs.map (wrapInGroups (h.groupNames m))))
              { Title := "", Description := "", Timestamp := none,
                Color := h.ColorMap.get record.Level, Fields := [] }]]) ∧
      ((h.logDiscord m record).panicked = false) ∧
      ((h.logDiscord m record).sent =
        [[f record
          (RemoveEmptyAttrs (h.attrs ++ record.attrs.map (wrapInGroups (h.groupNames m))))
          { Title := "", Description := "", Timestamp := none,
            Color := h.ColorMap.get record.Level, Fields := [] }]]) ∧
      (∀ h0 : DiscordHandler, (WithEmbedBuilder (some f) h0).BuildEmbed = some f) ∧
      (∀ (attrs : List Attr) (eb : EmbedBuilder),
        (customBuilder record attrs eb).Color =
          if record.Level = LevelError then 0xE30B5C else eb.Color) := by
  have hrun := logDiscord_ready h m record f c hb hc
  refine ⟨?_, ?_, ?_, fun _ => rfl, ?_⟩
  · rw [hrun]; rfl
  · rw [hrun]
  · rw [hrun]; rfl
  · intro attrs eb
    simp only [customBuilder, EmbedBuilder.Build, customFields_Color]
    split <;> rfl

/-- C9, amended, at the handler of example/custom_embed.go before its chaining: the
embed sent for the example's record is the custom builder's, colored 0xE30B5C. -/
theorem delivered_is_builder_result_witness :
    ((newHandler (fixedClient none)
        [WithSyncMode true, WithEmbedBuilder (some customBuilder)]).logDiscord
        (newHeap (fixedClient none) [WithSyncMode true, WithEmbedBuilder (some customBuilder)])
        customEmbedRecord).sent =
      [[{ Title := "Custom Title - Level ERROR",
          Description := "Custom Discription\nMsg: incoming request",
          Timestamp := some 1700000000, Color := 0xE30B5C,
          Fields := [{ Name := "payload", Value := "some payload", Inline := some true },
            { Name := "user_id", Value := "some_user_id", Inline := some true }] }]] :=
  (delivered_is_builder_result
    (newHandler (fixedClient none) [WithSyncMode true, WithEmbedBuilder (some customBuilder)])
    (newHeap (fixedClient none) [WithSyncMode true, WithEmbedBuilder (some customBuilder)])
    customEmbedRecord customBuilder (fixedClient none) rfl rfl).2.2.1.trans (by decide)

/-- The capacity after growth holds one more element. -/
theorem nextslicecap_gt (oldCap : Nat) : oldCap + 1 ≤ nextslicecap oldCap := by
  unfold nextslicecap
  split
  · omega
  · split <;> omega

/-- Appending through one slice keeps every sound slice of the heap sound. -/
theorem SliceOK_goAppend_other (arrays : List (List String)) (s t : StrSlice) (x : String)
    (ht : SliceOK arrays t) : SliceOK (goAppend arrays s x).1 t := by
  refine ⟨ht.1, ?_⟩
  by_cases hc : t.cap = 0
  · exact Or.inl hc
  · obtain ⟨a, ha, hal, hidx⟩ := ht.backing hc
    right
    unfold goAppend
    by_cases hlt : s.len < s.cap
    · simp only [if_pos hlt, List.get?_eq_getElem?, List.getElem?_set]
      by_cases he : s.arr = t.arr
      · have hidx2 : s.arr < arrays.length := he ▸ hidx
        simp [he, hidx, List.getD_eq_getElem?_getD, ha, hal]
      · simp [he, ha, hal]
    · simp only [if_neg hlt, List.get?_eq_getElem?]
      rw [List.getElem?_append_left hidx, ha]
      simp [hal]

/-- The slice `append` returns is sound in the heap it returns. -/
theorem SliceOK_goAppend_new (arrays : List (List String)) (s : StrSlice) (x : String)
    (hs : SliceOK arrays s) : SliceOK (goAppend arrays s x).1 (goAppend arrays s x).2 := by
  by_cases hlt : s.len < s.cap
  · have hother := SliceOK_goAppend_other arrays s s x hs
    have h2 : (goAppend arrays s x).2 = { s with len := s.len + 1 } := by
      simp [goAppend, hlt]
    rw [h2]
    exact ⟨by simp only; omega, hother.2⟩
  · have hlen := readSlice_length hs
    have hgt := nextslicecap_gt s.cap
    have hle := hs.1
    simp only [goAppend, if_neg hlt]
    refine ⟨by simp only; omega, Or.inr ?_⟩
    simp only [List.get?_eq_getElem?, List.getElem?_concat_length, Option.map_some',
      List.length_append, List.length_cons, List.length_replicate, hlen]
    congr 1
    omega

/-- What `logDiscord` does depends on the heap through the handler's group names only. -/
theorem logDiscord_congr (h : DiscordHandler) (m1 m2 : Mem) (record : Record)
    (hg : h.groupNames m1 = h.groupNames m2) : h.logDiscord m1 record = h.logDiscord m2 record := by
  simp only [DiscordHandler.logDiscord, hg]

/-- What `Handle` does depends on the heap through the handler's group names only. -/
theorem Handle_congr (h : DiscordHandler) (m1 m2 : Mem) (ctx : Context) (record : Record)
    (hg : h.groupNames m1 = h.groupNames m2) :
    h.Handle m1 ctx record = h.Handle m2 ctx record := by
  simp only [DiscordHandler.Handle, logDiscord_congr h m1 m2 record hg]

/-- `WithGroup` keeps the heap well formed. -/
theorem WithGroup_WF (m : Mem) (p : Ptr) (name : String) (r : WithResult) (hwf : m.WF)
    (hr : WithGroup m p name = some r) : r.mem.WF := by
  by_cases hn : name = ""
  · simp only [WithGroup, if_pos hn, Option.some.injEq] at hr
    subst hr
    exact hwf
  · cases hp : m.objs.get? p with
    | none =>
      unfold WithGroup at hr
      rw [if_neg hn, hp] at hr
      cases hr
    | some h =>
      rw [WithGroup_eq m p h name hp hn] at hr
      simp only [Option.some.injEq] at hr
      subst hr
      have hok : SliceOK m.arrays h.groups := hwf h (mem_objs_of_get hp)
      intro q hq
      simp only [List.mem_append, List.mem_singleton] at hq
      rcases hq with hq | hq
      · exact SliceOK_goAppend_other m.arrays h.groups q.groups name (hwf q hq)
      · subst hq
        exact SliceOK_goAppend_new m.arrays h.groups name hok

/-- `WithAttrs` keeps the heap well formed. -/
theorem WithAttrs_WF (m : Mem) (p : Ptr) (attrs : List Attr) (r : WithResult) (hwf : m.WF)
    (hr : WithAttrs m p attrs = some r) : r.mem.WF := by
  cases hp : m.objs.get? p with
  | none =>
    unfold WithAttrs at hr
    rw [hp] at hr
    cases hr
  | some h =>
    rw [WithAttrs_eq m p h attrs hp] at hr
    simp only [Option.some.injEq] at hr
    subst hr
    intro q hq
    simp only [List.mem_append, List.mem_singleton] at hq
    rcases hq with hq | hq
    · exact hwf q hq
    · subst hq
      exact hwf h (mem_objs_of_get hp)

/-- Allocating one more object leaves the allocated ones where they are. -/
theorem get_append_of_get {α : Type 1} (l : List α) (x a : α) (p : Nat)
    (hp : l.get? p = some a) : (l ++ [x]).get? p = some a := by
  rw [List.get?_eq_getElem?] at hp ⊢
  have hlt : p < l.length := by
    rcases Nat.lt_or_ge p l.length with h | h
    · exact h
    · rw [List.getElem?_eq_none h] at hp
      cases hp
  rw [List.getElem?_append_left hlt, hp]

/-- C10. `WithAttrs` and `WithGroup` do not mutate the receiver: in a well-formed heap,
after either call on an allocated handler the struct at the receiver's address is the
one it was (attributes, slice header, configuration, secondary handler), every other
allocated struct is where it was, the group names the receiver reads are the same, and
so `logDiscord` and `Handle` of the receiver do for every record what they did before. -/
theorem chaining_does_not_mutate_receiver (m : Mem) (p : Ptr) (h : DiscordHandler)
    (attrs : List Attr) (name : String) (hwf : m.WF) (hp : m.objs.get? p = some h) :
    (∃ r, WithAttrs m p attrs = some r ∧ r.mem.objs.get? p = some h ∧
        (∀ q a, m.objs.get? q = some a → r.mem.objs.get? q = some a) ∧
        h.groupNames r.mem = h.groupNames m ∧
        (∀ record, h.logDiscord r.mem record = h.logDiscord m record) ∧
        (∀ ctx record, h.Handle r.mem ctx record = h.Handle m ctx record)) ∧
      (∃ r, WithGroup m p name = some r ∧ r.mem.objs.get? p = some h ∧
        (∀ q a, m.objs.get? q = some a → r.mem.objs.get? q = some a) ∧
        h.groupNames r.mem = h.groupNames m ∧
        (∀ record, h.logDiscord r.mem record = h.logDiscord m record) ∧
        (∀ ctx record, h.Handle r.mem ctx record = h.Handle m ctx record)) := by
  constructor
  · refine ⟨_, WithAttrs_eq m p h attrs hp, get_append_of_get _ _ _ _ hp,
      fun q a hq => get_append_of_get _ _ _ _ hq, rfl, fun record => ?_, fun ctx record => ?_⟩
    · exact logDiscord_congr h _ _ record rfl
    · exact Handle_congr h _ _ ctx record rfl
  · by_cases hn : name = ""
    · refine ⟨{ mem := m, ptr := p, events := [] }, by simp [WithGroup, hn], hp,
        fun q a hq => hq, rfl, fun _ => rfl, fun _ _ => rfl⟩
    · have hok : SliceOK m.arrays h.groups := hwf h (mem_objs_of_get hp)
      have hg : h.groupNames
          { objs := m.objs ++
              [{ h with groups := (goAppend m.arrays h.groups name).2,
                        Handler := h.Handler.map (fun s => s.WithGroup name) }],
            arrays := (goAppend m.arrays h.groups name).1 } = h.groupNames m :=
        readSlice_goAppend_frame m.arrays h.groups name hok
      refine ⟨_, WithGroup_eq m p h name hp hn, get_append_of_get _ _ _ _ hp,
        fun q a hq => get_append_of_get _ _ _ _ hq, hg, fun record => ?_, fun ctx record => ?_⟩
      · exact logDiscord_congr h _ _ record hg
      · exact Handle_congr h _ _ ctx record hg

/-- C10 at a handler holding three groups in an array of capacity 4, where `append`
writes in place: after `WithGroup("d")` the receiver still reads "a", "b", "c". -/
theorem chaining_does_not_mutate_receiver_witness :
    deepHeap.WF ∧ deepHandler.groupNames deepHeap = ["a", "b", "c"] ∧
      ∃ r, WithGroup deepHeap 3 "d" = some r ∧
        deepHandler.groupNames r.mem = deepHandler.groupNames deepHeap := by
  refine ⟨by decide, by decide, ?_⟩
  obtain ⟨r, h1, _, _, h4, _⟩ := (chaining_does_not_mutate_receiver deepHeap 3 deepHandler []
    "d" (by decide) rfl).2
  exact ⟨r, h1, h4⟩

/-- C11 at a failing input. The handler at pointer 3 of `deepHeap` holds the groups a, b,
c in a backing array of capacity 4. `h1 = h.WithGroup("d")` reads a, b, c, d when it is
returned; after `h2 = h.WithGroup("e")` on the same `h`, `append` has written "e" into
the cell the two share, so `h1` reads a, b, c, e, as `h2` does, and a record `h1`
handles gets its fields named under `a.b.c.e`. -/
theorem withGroup_overwrites_sibling_group :
    groupNamesAt deepHeap 3 = some ["a", "b", "c"] ∧
      siblingCalls.bind (fun rs => groupNamesAt rs.1.mem rs.1.ptr) =
        some ["a", "b", "c", "d"] ∧
      siblingCalls.bind (fun rs => groupNamesAt rs.2.mem rs.1.ptr) =
        some ["a", "b", "c", "e"] ∧
      siblingCalls.bind (fun rs => groupNamesAt rs.2.mem rs.2.ptr) =
        some ["a", "b", "c", "e"] ∧
      siblingCalls.bind (fun rs => fieldNamesAt rs.2.mem rs.1.ptr colorMapRecord) =
        some [["a.b.c.e.payload", "a.b.c.e.user_id"]] := by
  refine ⟨by decide, by decide, by decide, by decide, by decide!⟩

/-- C13. `WithGroup("")` returns the receiver itself: the pointer it was called on, in
an unchanged heap (so with the same attributes, groups, configuration and secondary
handler), without a call on the secondary handler. -/
theorem withGroup_empty_returns_receiver (m : Mem) (p : Ptr) :
    ∃ r, WithGroup m p "" = some r ∧ r.ptr = p ∧ r.mem = m ∧ r.events = [] ∧
      r.mem.objs.get? r.ptr = m.objs.get? p ∧ groupNamesAt r.mem r.ptr = groupNamesAt m p :=
  ⟨{ mem := m, ptr := p, events := [] }, by simp [WithGroup], rfl, rfl, rfl, rfl, rfl⟩

/-- The configuration is shared by a handler with itself. -/
theorem sameConfig_refl (h : DiscordHandler) : sameConfig h h :=
  ⟨rfl, rfl, rfl, rfl, rfl, rfl, rfl⟩

/-- Sharing the configuration is transitive. -/
theorem sameConfig_trans {h1 h2 h3 : DiscordHandler} (h12 : sameConfig h1 h2)
    (h23 : sameConfig h2 h3) : sameConfig h1 h3 := by
  obtain ⟨a1, a2, a3, a4, a5, a6, a7⟩ := h12
  obtain ⟨b1, b2, b3, b4, b5, b6, b7⟩ := h23
  exact ⟨b1.trans a1, b2.trans a2, b3.trans a3, b4.trans a4, b5.trans a5, b6.trans a6,
    b7.trans a7⟩

/-- What one `WithAttrs` call returns: a new struct with the receiver's configuration
and the secondary handler extended alike, every allocated struct left in place. -/
theorem WithAttrs_spec (m : Mem) (p : Ptr) (h : DiscordHandler) (attrs : List Attr)
    (hp : m.objs.get? p = some h) :
    ∃ r nh, WithAttrs m p attrs = some r ∧ r.mem.objs.get? r.ptr = some nh ∧
      sameConfig h nh ∧ nh.Handler = h.Handler.map (fun s => s.WithAttrs attrs) ∧
      (∀ q a, m.objs.get? q = some a → r.mem.objs.get? q = some a) ∧
      r.events = (match h.Handler with
        | none => []
        | some _ => [.HandlerWithAttrs attrs]) := by
  refine ⟨_, ?_, WithAttrs_eq m p h attrs hp, ?_, ?_, ?_,
    fun q a hq => get_append_of_get _ _ _ _ hq, rfl⟩
  rotate_left
  · simp only [List.get?_eq_getElem?]
    exact List.getElem?_concat_length _ _
  · exact ⟨rfl, rfl, rfl, rfl, rfl, rfl, rfl⟩
  · rfl

/-- What one `WithGroup` call with a non-empty name returns: a new struct with the
receiver's configuration and the secondary handler extended alike, every allocated
struct left in place. -/
theorem WithGroup_spec (m : Mem) (p : Ptr) (h : DiscordHandler) (name : String)
    (hp : m.objs.get? p = some h) (hn : name ≠ "") :
    ∃ r nh, WithGroup m p name = some r ∧ r.mem.objs.get? r.ptr = some nh ∧
      sameConfig h nh ∧ nh.Handler = h.Handler.map (fun s => s.WithGroup name) ∧
      (∀ q a, m.objs.get? q = some a → r.mem.objs.get? q = some a) ∧
      r.events = (match h.Handler with
        | none => []
        | some _ => [.HandlerWithGroup name]) := by
  refine ⟨_, ?_, WithGroup_eq m p h name hp hn, ?_, ?_, ?_,
    fun q a hq => get_append_of_get _ _ _ _ hq, rfl⟩
  rotate_left
  · simp only [List.get?_eq_getElem?]
    exact List.getElem?_concat_length _ _
  · exact ⟨rfl, rfl, rfl, rfl, rfl, rfl, rfl⟩
  · rfl

/-- What a sequence of chaining calls returns: a handler with the configuration of the
first, holding the secondary handler with the calls that reach it applied in order;
every allocated struct is left in place, and the calls made on the secondary handler are
those calls, in order. -/
theorem chain_spec : ∀ (calls : List ChainCall) (m : Mem) (p : Ptr) (h : DiscordHandler),
    m.objs.get? p = some h →
    ∃ r nh, chain m p calls = some r ∧ r.mem.objs.get? r.ptr = some nh ∧ sameConfig h nh ∧
      nh.Handler = h.Handler.map (fun s => s.chain (liveCalls calls)) ∧
      (∀ q a, m.objs.get? q = some a → r.mem.objs.get? q = some a) ∧
      r.events = (match h.Handler with
        | none => []
        | some _ => (liveCalls calls).map ChainCall.event)
  | [], m, p, h, hp => by
    refine ⟨{ mem := m, ptr := p, events := [] }, h, rfl, hp, sameConfig_refl h, ?_,
      fun q a hq => hq, ?_⟩
    · cases h.Handler <;> simp [liveCalls, SlogHandler.chain]
    · cases h.Handler <;> simp [liveCalls]
  | .attrs as :: rest, m, p, h, hp => by
    obtain ⟨r1, nh1, hr1, hg1, hc1, hh1, hf1, he1⟩ := WithAttrs_spec m p h as hp
    obtain ⟨r2, nh2, hr2, hg2, hc2, hh2, hf2, he2⟩ := chain_spec rest r1.mem r1.ptr nh1 hg1
    refine ⟨{ r2 with events := r1.events ++ r2.events }, nh2, ?_, hg2,
      sameConfig_trans hc1 hc2, ?_, fun q a hq => hf2 q a (hf1 q a hq), ?_⟩
    · simp only [chain, hr1, hr2, Option.map_some']
    · rw [hh2, hh1]
      cases h.Handler <;> simp [liveCalls, ChainCall.isLive, SlogHandler.chain]
    · simp only [he1, he2, hh1]
      cases h.Handler <;> simp [liveCalls, ChainCall.isLive, ChainCall.event]
  | .group name :: rest, m, p, h, hp => by
    by_cases hn : name = ""
    · subst hn
      obtain ⟨r2, nh2, hr2, hg2, hc2, hh2, hf2, he2⟩ := chain_spec rest m p h hp
      refine ⟨{ r2 with events := [] ++ r2.events }, nh2, ?_, hg2, hc2, ?_, hf2, ?_⟩
      · simp only [chain, WithGroup, if_true, hr2, Option.map_some']
      · rw [hh2]
        cases h.Handler <;> simp [liveCalls, ChainCall.isLive]
      · simp only [he2, List.nil_append]
        cases h.Handler <;> simp [liveCalls, ChainCall.isLive]
    · obtain ⟨r1, nh1, hr1, hg1, hc1, hh1, hf1, he1⟩ := WithGroup_spec m p h name hp hn
      obtain ⟨r2, nh2, hr2, hg2, hc2, hh2, hf2, he2⟩ :=
        chain_spec rest r1.mem r1.ptr nh1 hg1
      refine ⟨{ r2 with events := r1.events ++ r2.events }, nh2, ?_, hg2,
        sameConfig_trans hc1 hc2, ?_, fun q a hq => hf2 q a (hf1 q a hq), ?_⟩
      · simp only [chain, hr1, hr2, Option.map_some']
      · rw [hh2, hh1]
        cases h.Handler <;> simp [liveCalls, ChainCall.isLive, SlogHandler.chain, hn]
      · simp only [he1, he2, hh1]
        cases h.Handler <;> simp [liveCalls, ChainCall.isLive, ChainCall.event, hn]

/-- C12. The secondary handler stays in lockstep under chaining. On an allocated handler
`h`, the handler `WithAttrs(attrs)` returns holds `s.WithAttrs(attrs)` when `h` holds the
secondary handler `s` and none when `h` holds none (`Option.map`); `WithGroup(name)`
with a non-empty name holds `s.WithGroup(name)` alike; and after a sequence of such
calls the handler returned holds `s` with the same calls applied in the same order,
those calls being exactly the calls made on the secondary handler. -/
theorem secondary_stays_in_lockstep (m : Mem) (p : Ptr) (h : DiscordHandler)
    (attrs : List Attr) (name : String) (calls : List ChainCall)
    (hp : m.objs.get? p = some h) (hn : name ≠ "")
    (hlive : ∀ c ∈ calls, c.isLive = true) :
    (∃ r nh, WithAttrs m p attrs = some r ∧ r.mem.objs.get? r.ptr = some nh ∧
        nh.Handler = h.Handler.map (fun s => s.WithAttrs attrs)) ∧
      (∃ r nh, WithGroup m p name = some r ∧ r.mem.objs.get? r.ptr = some nh ∧
        nh.Handler = h.Handler.map (fun s => s.WithGroup name)) ∧
      (∃ r nh, chain m p calls = some r ∧ r.mem.objs.get? r.ptr = some nh ∧
        nh.Handler = h.Handler.map (fun s => s.chain calls) ∧
        r.events = (match h.Handler with
          | none => []
          | some _ => calls.map ChainCall.event)) := by
  refine ⟨?_, ?_, ?_⟩
  · obtain ⟨r, nh, h1, h2, _, h4, _⟩ := WithAttrs_spec m p h attrs hp
    exact ⟨r, nh, h1, h2, h4⟩
  · obtain ⟨r, nh, h1, h2, _, h4, _⟩ := WithGroup_spec m p h name hp hn
    exact ⟨r, nh, h1, h2, h4⟩
  · obtain ⟨r, nh, h1, h2, _, h4, _, h6⟩ := chain_spec calls m p h hp
    have hl : liveCalls calls = calls := List.filter_eq_self.mpr hlive
    rw [hl] at h4 h6
    exact ⟨r, nh, h1, h2, h4, h6⟩

/-- C12 at a handler with a secondary handler: after `WithAttrs([env])` and
`WithGroup("request")` the handler returned holds the secondary handler with the same
two calls applied. -/
theorem secondary_stays_in_lockstep_witness :
    ∃ r nh,
      chain (newHeap (fixedClient none) [WithHandler (some (levelHandler LevelDebug none))]) 0
          [.attrs [.mk "env" (.string "local")], .group "request"] = some r ∧
        r.mem.objs.get? r.ptr = some nh ∧
        nh.Handler = some (((levelHandler LevelDebug none).WithAttrs
          [.mk "env" (.string "local")]).WithGroup "request") := by
  obtain ⟨r, nh, h1, h2, h3, _⟩ := (secondary_stays_in_lockstep
    (newHeap (fixedClient none) [WithHandler (some (levelHandler LevelDebug none))]) 0
    (newHandler (fixedClient none) [WithHandler (some (levelHandler LevelDebug none))])
    [] "request" [.attrs [.mk "env" (.string "local")], .group "request"] rfl (by decide)
    (by decide)).2.2
  exact ⟨r, nh, h1, h2, h3⟩

/-- No option touches the URL, the client, the attributes or the groups. -/
theorem Opt.fn_untouched (o : Opt) (g : DiscordHandler) :
    (o.fn g).WebhookURL = g.WebhookURL ∧ (o.fn g).Client = g.Client ∧
      (o.fn g).attrs = g.attrs ∧ (o.fn g).groups = g.groups := by
  cases o <;> exact ⟨rfl, rfl, rfl, rfl⟩

/-- A field an option sets takes the option's value, every other field keeps its own. -/
theorem Opt.fn_fields (o : Opt) (g : DiscordHandler) :
    (o.fn g).Handler = o.handler?.getD g.Handler ∧
      (o.fn g).MinLevel = o.minLevel?.getD g.MinLevel ∧
      (o.fn g).SyncMode = o.syncMode?.getD g.SyncMode ∧
      (o.fn g).Timeout = o.timeout?.getD g.Timeout ∧
      (o.fn g).ColorMap = o.colorMap?.getD g.ColorMap ∧
      (o.fn g).BuildEmbed = o.buildEmbed?.getD g.BuildEmbed := by
  cases o <;> exact ⟨rfl, rfl, rfl, rfl, rfl, rfl⟩

/-- After the loop over the options, a field holds what the last option setting it gave,
or what it held before the loop. -/
theorem fold_options_field {α : Type u} (proj : DiscordHandler → α) (sel : Opt → Option α)
    (hsel : ∀ o g, proj (o.fn g) = (sel o).getD (proj g)) :
    ∀ (opts : List Opt) (g : DiscordHandler),
      proj ((opts.map Opt.fn).foldl (fun h opt => opt.apply h) g) = lastSet sel opts (proj g) := by
  intro opts
  induction opts with
  | nil => intro g; simp [lastSet]
  | cons o rest ih =>
    intro g
    simp only [List.map_cons, List.foldl_cons, optFunc.apply]
    have := ih (o.fn g)
    simp only [optFunc.apply] at this
    rw [this, hsel]
    cases hs : sel o with
    | none => simp [lastSet, List.filterMap_cons, hs]
    | some v => simp [lastSet, List.filterMap_cons, hs, List.getLast?_cons]

/-- The loop over the options leaves the URL as given and the draft without a client. -/
theorem configured_untouched (webhookURL : String) (opts : List Opt) :
    (configured webhookURL opts).WebhookURL = webhookURL ∧
      (configured webhookURL opts).Client = none := by
  unfold configured
  generalize hg : ({ defaultHandler with WebhookURL := webhookURL } : DiscordHandler) = g
  have hu : g.WebhookURL = webhookURL := by rw [← hg]
  have hc : g.Client = none := by rw [← hg]; rfl
  clear hg
  induction opts generalizing g with
  | nil => exact ⟨hu, hc⟩
  | cons o rest ih =>
    simp only [List.map_cons, List.foldl_cons, optFunc.apply]
    exact ih (o.fn g) ((Opt.fn_untouched o g).1.trans hu) ((Opt.fn_untouched o g).2.1.trans hc)

/-- What `NewDiscordHandler` returns, by cases on the URL and on what
`webhook.NewWithURL` answers for the configured draft. -/
theorem NewDiscordHandler_eq (newWithURL : NewWithURL) (m : Mem) (webhookURL : String)
    (opts : List Opt) :
    NewDiscordHandler newWithURL m webhookURL (opts.map Opt.fn) =
      if webhookURL = "" then (m, .error (.new "missing webhook URL"))
      else
        match newWithURL webhookURL (configured webhookURL opts).Timeout
            (configured webhookURL opts).Handler with
        | .error err => (m, .error (.wrap "could not init webhook client: " err))
        | .ok client =>
          ({ m with objs := m.objs ++ [{ configured webhookURL opts with Client := some client }] },
            .ok m.objs.length) := by
  have hu := (configured_untouched webhookURL opts).1
  unfold configured at hu ⊢
  unfold NewDiscordHandler
  simp only []
  generalize List.foldl (fun h (opt : optFunc) => opt.apply h) _ (List.map Opt.fn opts) = g
    at hu ⊢
  subst hu
  by_cases he : g.WebhookURL = ""
  · simp only [if_pos he]
  · simp only [if_neg he, initWebhookClient]
    cases newWithURL g.WebhookURL g.Timeout g.Handler <;> rfl

/-- A successful `NewDiscordHandler` had a non-empty URL and a client from
`webhook.NewWithURL`; it allocated the configured draft with that client. -/
theorem NewDiscordHandler_ok (newWithURL : NewWithURL) (m : Mem) (webhookURL : String)
    (opts : List Opt) (m1 : Mem) (p : Ptr)
    (hnew : NewDiscordHandler newWithURL m webhookURL (opts.map Opt.fn) = (m1, .ok p)) :
    ∃ c, webhookURL ≠ "" ∧
      newWithURL webhookURL (configured webhookURL opts).Timeout
        (configured webhookURL opts).Handler = .ok c ∧
      m1.objs.get? p = some { configured webhookURL opts with Client := some c } := by
  rw [NewDiscordHandler_eq] at hnew
  by_cases he : webhookURL = ""
  · rw [if_pos he] at hnew
    cases hnew
  · rw [if_neg he] at hnew
    cases hc : newWithURL webhookURL (configured webhookURL opts).Timeout
        (configured webhookURL opts).Handler with
    | error err =>
      rw [hc] at hnew
      cases hnew
    | ok c =>
      rw [hc] at hnew
      simp only [Prod.mk.injEq, Except.ok.injEq] at hnew
      obtain ⟨hm, hp⟩ := hnew
      subst hm hp
      refine ⟨c, he, rfl, ?_⟩
      simp only [List.get?_eq_getElem?]
      exact List.getElem?_concat_length _ _

/-- C14. `NewDiscordHandler` returns a handler and no error, or no handler and an error.
For the empty URL, whatever the options, it returns the error "missing webhook URL", no
handler, an unchanged heap, and makes no call of `webhook.NewWithURL`. For a non-empty
URL it calls `webhook.NewWithURL` once, with the URL and the configured timeout and
secondary handler; when that fails it returns no handler and an error wrapping the
failure; when that succeeds it returns a newly allocated handler whose client is the
one created and whose URL is the one given. -/
theorem newDiscordHandler_handler_or_error (newWithURL : NewWithURL) (m : Mem)
    (webhookURL : String) (opts : List Opt) :
    ((returnedHandler (NewDiscordHandler newWithURL m webhookURL (opts.map Opt.fn)).2).isSome =
        !(returnedError (NewDiscordHandler newWithURL m webhookURL (opts.map Opt.fn)).2).isSome) ∧
      (webhookURL = "" →
        NewDiscordHandler newWithURL m webhookURL (opts.map Opt.fn) =
          (m, .error (.new "missing webhook URL")) ∧
        newWithURLCalls webhookURL (opts.map Opt.fn) = []) ∧
      (webhookURL ≠ "" →
        newWithURLCalls webhookURL (opts.map Opt.fn) =
          [(webhookURL, (configured webhookURL opts).Timeout,
            (configured webhookURL opts).Handler)]) ∧
      (webhookURL ≠ "" → ∀ err,
        newWithURL webhookURL (configured webhookURL opts).Timeout
          (configured webhookURL opts).Handler = .error err →
        NewDiscordHandler newWithURL m webhookURL (opts.map Opt.fn) =
          (m, .error (.wrap "could not init webhook client: " err))) ∧
      (webhookURL ≠ "" → ∀ c,
        newWithURL webhookURL (configured webhookURL opts).Timeout
          (configured webhookURL opts).Handler = .ok c →
        ∃ m1 p h, NewDiscordHandler newWithURL m webhookURL (opts.map Opt.fn) = (m1, .ok p) ∧
          m1.objs.get? p = some h ∧ m.objs.get? p = none ∧
          h.Client = some c ∧ h.WebhookURL = webhookURL ∧
          (∀ q a, m.objs.get? q = some a → m1.objs.get? q = some a)) := by
  have hu := (configured_untouched webhookURL opts).1
  have hcalls : newWithURLCalls webhookURL (opts.map Opt.fn) =
      if webhookURL = "" then []
      else [(webhookURL, (configured webhookURL opts).Timeout,
        (configured webhookURL opts).Handler)] := by
    unfold configured at hu ⊢
    unfold newWithURLCalls
    simp only []
    generalize List.foldl (fun h (opt : optFunc) => opt.apply h) _ (List.map Opt.fn opts) = g
      at hu ⊢
    subst hu
    rfl
  refine ⟨?_, ?_, ?_, ?_, ?_⟩
  · cases (NewDiscordHandler newWithURL m webhookURL (opts.map Opt.fn)).2 <;>
      simp [returnedHandler, returnedError]
  · intro he
    rw [NewDiscordHandler_eq, hcalls, if_pos he, if_pos he]
    exact ⟨rfl, rfl⟩
  · intro he
    rw [hcalls, if_neg he]
  · intro he err herr
    rw [NewDiscordHandler_eq, if_neg he, herr]
  · intro he c hc
    refine ⟨({ m with objs := m.objs ++
        [({ configured webhookURL opts with Client := some c } : DiscordHandler)] } : Mem),
      m.objs.length, ({ configured webhookURL opts with Client := some c } : DiscordHandler),
      ?_, ?_, ?_, rfl, hu, ?_⟩
    · rw [NewDiscordHandler_eq, if_neg he, hc]
    · simp only [List.get?_eq_getElem?]
      exact List.getElem?_concat_length _ _
    · simp
    · intro q a hq
      exact get_append_of_get _ _ _ _ hq

/-- The fields of the configured draft: for each, the value of the last option setting
it, the default otherwise. -/
theorem configured_fields (webhookURL : String) (opts : List Opt) :
    (configured webhookURL opts).MinLevel = lastSet Opt.minLevel? opts LevelDebug ∧
      (configured webhookURL opts).SyncMode = lastSet Opt.syncMode? opts false ∧
      (configured webhookURL opts).Timeout = lastSet Opt.timeout? opts (10 * 1000000000) ∧
      (configured webhookURL opts).ColorMap = lastSet Opt.colorMap? opts DefaultColorMappings ∧
      (configured webhookURL opts).BuildEmbed =
        lastSet Opt.buildEmbed? opts (some defaultBuildEmbed) ∧
      (configured webhookURL opts).Handler = lastSet Opt.handler? opts none := by
  unfold configured
  refine ⟨?_, ?_, ?_, ?_, ?_, ?_⟩
  · exact fold_options_field (fun h => h.MinLevel) Opt.minLevel?
      (fun o g => (Opt.fn_fields o g).2.1) opts _
  · exact fold_options_field (fun h => h.SyncMode) Opt.syncMode?
      (fun o g => (Opt.fn_fields o g).2.2.1) opts _
  · exact fold_options_field (fun h => h.Timeout) Opt.timeout?
      (fun o g => (Opt.fn_fields o g).2.2.2.1) opts _
  · exact fold_options_field (fun h => h.ColorMap) Opt.colorMap?
      (fun o g => (Opt.fn_fields o g).2.2.2.2.1) opts _
  · exact fold_options_field (fun h => h.BuildEmbed) Opt.buildEmbed?
      (fun o g => (Opt.fn_fields o g).2.2.2.2.2) opts _
  · exact fold_options_field (fun h => h.Handler) Opt.handler?
      (fun o g => (Opt.fn_fields o g).1) opts _

/-- C15. After a successful construction with the options `opts`, each configurable
field of the handler returned holds the value of the last option of `opts` that sets it,
and its default when none does: minimum level Debug, synchronous false, timeout ten
seconds, color map `DefaultColorMappings`, builder the default builder, no secondary
handler. An option changes the one field it sets: every field of the handler it is
applied to takes the option's value when the option sets that field and keeps its own
otherwise, and the URL, the client, the attributes and the groups are never touched. -/
theorem constructed_fields_last_option_or_default (newWithURL : NewWithURL) (m : Mem)
    (webhookURL : String) (opts : List Opt) (m1 : Mem) (p : Ptr)
    (hnew : NewDiscordHandler newWithURL m webhookURL (opts.map Opt.fn) = (m1, .ok p)) :
    (∃ h, m1.objs.get? p = some h ∧
        h.MinLevel = lastSet Opt.minLevel? opts LevelDebug ∧
        h.SyncMode = lastSet Opt.syncMode? opts false ∧
        h.Timeout = lastSet Opt.timeout? opts (10 * 1000000000) ∧
        h.ColorMap = lastSet Opt.colorMap? opts DefaultColorMappings ∧
        h.BuildEmbed = lastSet Opt.buildEmbed? opts (some defaultBuildEmbed) ∧
        h.Handler = lastSet Opt.handler? opts none) ∧
      (∀ (o : Opt) (g : DiscordHandler),
        (o.fn g).Handler = o.handler?.getD g.Handler ∧
        (o.fn g).MinLevel = o.minLevel?.getD g.MinLevel ∧
        (o.fn g).SyncMode = o.syncMode?.getD g.SyncMode ∧
        (o.fn g).Timeout = o.timeout?.getD g.Timeout ∧
        (o.fn g).ColorMap = o.colorMap?.getD g.ColorMap ∧
        (o.fn g).BuildEmbed = o.buildEmbed?.getD g.BuildEmbed ∧
        (o.fn g).WebhookURL = g.WebhookURL ∧ (o.fn g).Client = g.Client ∧
        (o.fn g).attrs = g.attrs ∧ (o.fn g).groups = g.groups) ∧
      (∀ o : Opt,
        [o.handler?.isSome, o.minLevel?.isSome, o.syncMode?.isSome, o.timeout?.isSome,
          o.colorMap?.isSome, o.buildEmbed?.isSome].count true = 1) := by
  obtain ⟨c, _, _, hget⟩ := NewDiscordHandler_ok newWithURL m webhookURL opts m1 p hnew
  refine ⟨⟨_, hget, configured_fields webhookURL opts⟩, ?_, ?_⟩
  · intro o g
    obtain ⟨a1, a2, a3, a4, a5, a6⟩ := Opt.fn_fields o g
    obtain ⟨b1, b2, b3, b4⟩ := Opt.fn_untouched o g
    exact ⟨a1, a2, a3, a4, a5, a6, b1, b2, b3, b4⟩
  · intro o
    cases o <;> rfl

/-- C15 at a construction where the minimum level is set twice and the mode once: the
handler has the second level, the given mode and the default timeout. -/
theorem constructed_fields_last_option_or_default_witness :
    ∃ h, (NewDiscordHandler (fun _ _ _ => .ok (fixedClient none)) Mem.empty "webhook_url"
        ([Opt.WithMinLevel LevelWarn, Opt.WithSyncMode true,
          Opt.WithMinLevel LevelError].map Opt.fn)).1.objs.get? 0 = some h ∧
      h.MinLevel = LevelError ∧ h.SyncMode = true ∧ h.Timeout = 10000000000 := by
  obtain ⟨h, h0, h1, h2, h3, _⟩ := (constructed_fields_last_option_or_default
    (fun _ _ _ => .ok (fixedClient none)) Mem.empty "webhook_url"
    [Opt.WithMinLevel LevelWarn, Opt.WithSyncMode true, Opt.WithMinLevel LevelError]
    _ 0 rfl).1
  exact ⟨h, h0, h1.trans (by decide), h2.trans (by decide), h3.trans (by decide)⟩

/-- Chaining keeps the configuration: every handler reachable from `h0` shares it. -/
theorem Derived.sameConfig {h0 nh : DiscordHandler} (hd : Derived h0 nh) :
    SlogDiscord.sameConfig h0 nh := by
  induction hd with
  | root => exact sameConfig_refl h0
  | withAttrs h nh m p attrs r _ hp hr hg ih =>
    obtain ⟨r2, nh2, hr2, hg2, hc2, _⟩ := WithAttrs_spec m p h attrs hp
    rw [hr] at hr2
    cases hr2
    rw [hg] at hg2
    cases hg2
    exact sameConfig_trans ih hc2
  | withGroup h nh m p name r _ hp hr hg ih =>
    by_cases hn : name = ""
    · subst hn
      simp only [WithGroup, if_true, Option.some.injEq] at hr
      subst hr
      rw [hp] at hg
      cases hg
      exact ih
    · obtain ⟨r2, nh2, hr2, hg2, hc2, _⟩ := WithGroup_spec m p h name hp hn
      rw [hr] at hr2
      cases hr2
      rw [hg] at hg2
      cases hg2
      exact sameConfig_trans ih hc2

/-- The handler a sequence of chaining calls returns is reachable from the first. -/
theorem Derived.of_chain : ∀ (calls : List ChainCall) (m : Mem) (p : Ptr)
    (h0 h nh : DiscordHandler) (r : WithResult), Derived h0 h → m.objs.get? p = some h →
    chain m p calls = some r → r.mem.objs.get? r.ptr = some nh → Derived h0 nh
  | [], m, p, h0, h, nh, r, hd, hp, hr, hg => by
    simp only [chain, Option.some.injEq] at hr
    subst hr
    rw [hp] at hg
    cases hg
    exact hd
  | .attrs as :: rest, m, p, h0, h, nh, r, hd, hp, hr, hg => by
    obtain ⟨r1, nh1, hr1, hg1, _⟩ := WithAttrs_spec m p h as hp
    simp only [chain, hr1] at hr
    cases hr2 : chain r1.mem r1.ptr rest with
    | none => rw [hr2] at hr; cases hr
    | some r2 =>
      rw [hr2] at hr
      simp only [Option.map_some', Option.some.injEq] at hr
      subst hr
      exact Derived.of_chain rest r1.mem r1.ptr h0 nh1 nh r2
        (Derived.withAttrs h nh1 m p as r1 hd hp hr1 hg1) hg1 hr2 hg
  | .group name :: rest, m, p, h0, h, nh, r, hd, hp, hr, hg => by
    cases hr1 : WithGroup m p name with
    | none => simp only [chain, hr1] at hr; cases hr
    | some r1 =>
      simp only [chain, hr1] at hr
      have hg1 : ∃ nh1, r1.mem.objs.get? r1.ptr = some nh1 := by
        by_cases hn : name = ""
        · subst hn
          simp only [WithGroup, if_true, Option.some.injEq] at hr1
          subst hr1
          exact ⟨h, hp⟩
        · obtain ⟨r1b, nh1, hr1b, hg1b, _⟩ := WithGroup_spec m p h name hp hn
          rw [hr1] at hr1b
          cases hr1b
          exact ⟨nh1, hg1b⟩
      obtain ⟨nh1, hg1⟩ := hg1
      cases hr2 : chain r1.mem r1.ptr rest with
      | none => rw [hr2] at hr; cases hr
      | some r2 =>
        rw [hr2] at hr
        simp only [Option.map_some', Option.some.injEq] at hr
        subst hr
        exact Derived.of_chain rest r1.mem r1.ptr h0 nh1 nh r2
          (Derived.withGroup h nh1 m p name r1 hd hp hr1 hg1) hg1 hr2 hg

/-- C16. Chaining preserves the configuration. For a handler `h0` returned by a
successful `NewDiscordHandler` and every handler `nh` reachable from it through
`WithAttrs` and `WithGroup` calls (in any heap, in any order, `Derived`), `nh` has the
client of `h0`, which is not nil, and its URL, minimum level, mode, timeout, color map
and builder; so the comparison of a level with the minimum level and the color of a
level are the same for both. The handler any sequence of chaining calls returns is such
a reachable handler. -/
theorem derived_handlers_share_configuration (newWithURL : NewWithURL) (m : Mem)
    (webhookURL : String) (opts : List Opt) (m1 : Mem) (p0 : Ptr) (h0 nh : DiscordHandler)
    (hnew : NewDiscordHandler newWithURL m webhookURL (opts.map Opt.fn) = (m1, .ok p0))
    (h0p : m1.objs.get? p0 = some h0) (hd : Derived h0 nh) :
    (∃ c, h0.Client = some c ∧ nh.Client = some c) ∧
      nh.WebhookURL = h0.WebhookURL ∧ nh.MinLevel = h0.MinLevel ∧
      nh.SyncMode = h0.SyncMode ∧ nh.Timeout = h0.Timeout ∧ nh.ColorMap = h0.ColorMap ∧
      nh.BuildEmbed = h0.BuildEmbed ∧
      (∀ l : Level, decide (l ≥ nh.MinLevel) = decide (l ≥ h0.MinLevel)) ∧
      (∀ l : Level, nh.ColorMap.get l = h0.ColorMap.get l) ∧
      (∀ (calls : List ChainCall) (m2 : Mem) (r : WithResult) (nh2 : DiscordHandler),
        m2.objs.get? p0 = some h0 → chain m2 p0 calls = some r →
        r.mem.objs.get? r.ptr = some nh2 → Derived h0 nh2) := by
  obtain ⟨c, _, _, hget⟩ := NewDiscordHandler_ok newWithURL m webhookURL opts m1 p0 hnew
  rw [h0p] at hget
  simp only [Option.some.injEq] at hget
  have hc0 : h0.Client = some c := by rw [hget]
  obtain ⟨a1, a2, a3, a4, a5, a6, a7⟩ := hd.sameConfig
  refine ⟨⟨c, hc0, a1.trans hc0⟩, a2, a3, a4, a5, a6, a7, fun l => by rw [a3],
    fun l => by rw [a6], ?_⟩
  intro calls m2 r nh2 hp hr hg
  exact Derived.of_chain calls m2 p0 h0 h0 nh2 r Derived.root hp hr hg

/-- C16 at the handler built with minimum WARN in synchronous mode: after
`WithAttrs([env])`, `WithGroup("request")` the handler returned still has minimum WARN,
synchronous mode and a client. -/
theorem derived_handlers_share_configuration_witness :
    ∃ r nh,
      chain (newHeap (fixedClient none) [WithMinLevel LevelWarn, WithSyncMode true]) 0
          [.attrs [.mk "env" (.string "local")], .group "request"] = some r ∧
        r.mem.objs.get? r.ptr = some nh ∧ nh.MinLevel = LevelWarn ∧ nh.SyncMode = true ∧
        nh.Client.isSome = true := by
  obtain ⟨r, nh, hr, hg, _⟩ := chain_spec
    [.attrs [.mk "env" (.string "local")], .group "request"]
    (newHeap (fixedClient none) [WithMinLevel LevelWarn, WithSyncMode true]) 0
    (newHandler (fixedClient none) [WithMinLevel LevelWarn, WithSyncMode true]) rfl
  obtain ⟨⟨c, _, hc⟩, _, h3, h4, _⟩ := derived_handlers_share_configuration
    (fun _ _ _ => .ok (fixedClient none)) Mem.empty "webhook_url"
    [Opt.WithMinLevel LevelWarn, Opt.WithSyncMode true]
    (newHeap (fixedClient none) [WithMinLevel LevelWarn, WithSyncMode true]) 0
    (newHandler (fixedClient none) [WithMinLevel LevelWarn, WithSyncMode true]) nh rfl rfl
    (Derived.of_chain [.attrs [.mk "env" (.string "local")], .group "request"]
      (newHeap (fixedClient none) [WithMinLevel LevelWarn, WithSyncMode true]) 0 _ _ nh r
      Derived.root rfl hr hg)
  exact ⟨r, nh, hr, hg, h3, h4, by rw [hc]; rfl⟩

/-- The value of the last option setting a field, by the first option of the list. -/
theorem lastSet_cons {α : Type u} (sel : Opt → Option α) (o : Opt) (rest : List Opt)
    (d : α) : lastSet sel (o :: rest) d = lastSet sel rest ((sel o).getD d) := by
  cases hs : sel o with
  | none => simp [lastSet, List.filterMap_cons, hs]
  | some v => simp [lastSet, List.filterMap_cons, hs, List.getLast?_cons]

/-- When no option passes a nil builder, the builder configured is not nil. -/
theorem lastSet_buildEmbed_isSome (opts : List Opt)
    (hopts : ∀ o ∈ opts, o.buildEmbed? ≠ some none) :
    ∀ d : Option BuildEmbed, d.isSome = true →
      (lastSet Opt.buildEmbed? opts d).isSome = true := by
  induction opts with
  | nil => intro d hd; simpa [lastSet] using hd
  | cons o rest ih =>
    intro d hd
    rw [lastSet_cons]
    apply ih (fun x hx => hopts x (by simp [hx]))
    have ho := hopts o (by simp)
    cases hs : o.buildEmbed? with
    | none => simpa using hd
    | some b =>
      cases b with
      | none => exact absurd hs ho
      | some f => rfl

/-- A handler made by `NewDiscordHandler` when no option passes a nil builder, and every
handler reachable from it by chaining, holds a builder and a client. -/
theorem derived_holds_builder_and_client (newWithURL : NewWithURL) (m0 : Mem)
    (webhookURL : String) (opts : List Opt) (m1 : Mem) (p0 : Ptr) (h0 nh : DiscordHandler)
    (hopts : ∀ o ∈ opts, o.buildEmbed? ≠ some none)
    (hnew : NewDiscordHandler newWithURL m0 webhookURL (opts.map Opt.fn) = (m1, .ok p0))
    (h0p : m1.objs.get? p0 = some h0) (hd : Derived h0 nh) :
    nh.BuildEmbed.isSome = true ∧ nh.Client.isSome = true := by
  obtain ⟨c0, _, _, hget⟩ := NewDiscordHandler_ok newWithURL m0 webhookURL opts m1 p0 hnew
  rw [h0p] at hget
  simp only [Option.some.injEq] at hget
  obtain ⟨a1, _, _, _, _, _, a7⟩ := hd.sameConfig
  have hb0 : h0.BuildEmbed = lastSet Opt.buildEmbed? opts (some defaultBuildEmbed) := by
    rw [hget]
    exact (configured_fields webhookURL opts).2.2.2.2.1
  have hc0 : h0.Client = some c0 := by rw [hget]
  constructor
  · rw [a7, hb0]
    exact lastSet_buildEmbed_isSome opts hopts _ rfl
  · rw [a1, hc0]
    rfl

/-- The embedding of a list into `Raw` is that of its attributes. -/
theorem raw_ofAttrs_eq_map (as : List Attr) : Raw.ofAttrs as = as.map Raw.ofAttr := by
  induction as with
  | nil => simp [Raw.ofAttrs]
  | cons a rest ih => simp [Raw.ofAttrs, ih]

/-- An attribute is an empty group in `Raw` exactly when it is one. -/
theorem raw_ofAttr_isEmptyGroup (a : Attr) :
    (Raw.ofAttr a).Value.isEmptyGroup = a.Value.isEmptyGroup := by
  obtain ⟨key, v⟩ := a
  cases v with
  | group as =>
    cases as <;>
      simp [Raw.ofAttr, Raw.ofAttrs, Raw.Attr.Value, Attr.Value, Raw.Value.isEmptyGroup,
        Value.isEmptyGroup]
  | zero => simp [Raw.ofAttr, Raw.Attr.Value, Attr.Value, Raw.Value.isEmptyGroup,
      Value.isEmptyGroup]
  | string _ => simp [Raw.ofAttr, Raw.Attr.Value, Attr.Value, Raw.Value.isEmptyGroup,
      Value.isEmptyGroup]
  | int64 _ => simp [Raw.ofAttr, Raw.Attr.Value, Attr.Value, Raw.Value.isEmptyGroup,
      Value.isEmptyGroup]
  | bool _ => simp [Raw.ofAttr, Raw.Attr.Value, Attr.Value, Raw.Value.isEmptyGroup,
      Value.isEmptyGroup]

/-- `GroupValue` in `Raw` is `GroupValue`. -/
theorem raw_ofAttrs_filter (as : List Attr) :
    Raw.ofAttrs (as.filter (fun a => !a.Value.isEmptyGroup)) =
      (Raw.ofAttrs as).filter (fun a => !a.Value.isEmptyGroup) := by
  induction as with
  | nil => simp [Raw.ofAttrs]
  | cons a rest ih =>
    have he := raw_ofAttr_isEmptyGroup a
    cases hv : a.Value.isEmptyGroup <;>
      simp [List.filter_cons, Raw.ofAttrs, hv, he, ih]

/-- Wrapping in groups in `Raw` is wrapping in groups. -/
theorem raw_ofAttr_wrapInGroups (gs : List String) (a : Attr) :
    Raw.ofAttr (wrapInGroups gs a) = Raw.wrapInGroups gs (Raw.ofAttr a) := by
  induction gs with
  | nil => simp [wrapInGroups, Raw.wrapInGroups]
  | cons g rest ih =>
    simp only [wrapInGroups, Raw.wrapInGroups, GroupValue, Raw.GroupValue, Raw.ofAttr,
      raw_ofAttrs_filter, Raw.ofAttrs, ih]

mutual
/-- `RemoveEmptyAttrs` in `Raw` is `RemoveEmptyAttrs`. -/
theorem raw_RemoveEmptyAttrs_ofAttrs : ∀ (as : List Attr),
    Raw.RemoveEmptyAttrs (Raw.ofAttrs as) = Raw.ofAttrs (RemoveEmptyAttrs as)
  | [] => by simp [Raw.ofAttrs, Raw.RemoveEmptyAttrs, RemoveEmptyAttrs]
  | a :: rest => by
    have h1 := raw_RemoveEmptyAttr_ofAttr a
    have h2 := raw_RemoveEmptyAttrs_ofAttrs rest
    rw [Raw.ofAttrs, Raw.RemoveEmptyAttrs, RemoveEmptyAttrs, h1, h2]
    cases RemoveEmptyAttr a <;> simp [Raw.ofAttrs]
/-- `RemoveEmptyAttr` in `Raw` is `RemoveEmptyAttr`. -/
theorem raw_RemoveEmptyAttr_ofAttr : ∀ (a : Attr),
    Raw.RemoveEmptyAttr (Raw.ofAttr a) = (RemoveEmptyAttr a).map Raw.ofAttr
  | .mk key (.group as) => by
    have ih := raw_RemoveEmptyAttrs_ofAttrs as
    rw [Raw.ofAttr, Raw.RemoveEmptyAttr, RemoveEmptyAttr, ih]
    have hemp : (Raw.ofAttrs (RemoveEmptyAttrs as)).isEmpty = (RemoveEmptyAttrs as).isEmpty := by
      cases RemoveEmptyAttrs as <;> simp [Raw.ofAttrs]
    rw [hemp]
    by_cases hk : key = ""
    · simp [hk]
    · by_cases he : (RemoveEmptyAttrs as).isEmpty = true
      · simp [hk, he]
      · simp [hk, he, Raw.ofAttr, GroupValue, Raw.GroupValue, raw_ofAttrs_filter]
  | .mk key .zero => by
    by_cases hk : key = "" <;>
      simp [Raw.ofAttr, Raw.RemoveEmptyAttr, RemoveEmptyAttr, hk, Raw.Value.isZero, Value.isZero]
  | .mk key (.string _) => by
    by_cases hk : key = "" <;>
      simp [Raw.ofAttr, Raw.RemoveEmptyAttr, RemoveEmptyAttr, hk, Raw.Value.isZero, Value.isZero]
  | .mk key (.int64 _) => by
    by_cases hk : key = "" <;>
      simp [Raw.ofAttr, Raw.RemoveEmptyAttr, RemoveEmptyAttr, hk, Raw.Value.isZero, Value.isZero]
  | .mk key (.bool _) => by
    by_cases hk : key = "" <;>
      simp [Raw.ofAttr, Raw.RemoveEmptyAttr, RemoveEmptyAttr, hk, Raw.Value.isZero, Value.isZero]
end

mutual
/-- `populateEmbedFields` in `Raw` returns, with the fields of `populateEmbedFields`. -/
theorem raw_populateEmbedFields_ofAttrs : ∀ (as : List Attr) (base : String)
    (eb : EmbedBuilder),
    Raw.populateEmbedFields base (Raw.ofAttrs as) eb = some (populateEmbedFields base as eb)
  | [], base, eb => by simp [Raw.ofAttrs, Raw.populateEmbedFields, populateEmbedFields]
  | a :: rest, base, eb => by
    rw [Raw.ofAttrs, Raw.populateEmbedFields, populateEmbedFields,
      raw_populateEmbedField_ofAttr a base eb]
    exact raw_populateEmbedFields_ofAttrs rest base _
/-- The same for one attribute. -/
theorem raw_populateEmbedField_ofAttr : ∀ (a : Attr) (base : String) (eb : EmbedBuilder),
    Raw.populateEmbedField base (Raw.ofAttr a) eb = some (populateEmbedField base a eb)
  | .mk key (.group as), base, eb => by
    rw [Raw.ofAttr, Raw.populateEmbedField, populateEmbedField]
    exact raw_populateEmbedFields_ofAttrs as _ eb
  | .mk key .zero, base, eb => by
    simp [Raw.ofAttr, Raw.populateEmbedField, populateEmbedField, Raw.ValueToString,
      ValueToString]
  | .mk key (.string _), base, eb => by
    simp [Raw.ofAttr, Raw.populateEmbedField, populateEmbedField, Raw.ValueToString,
      ValueToString]
  | .mk key (.int64 _), base, eb => by
    simp [Raw.ofAttr, Raw.populateEmbedField, populateEmbedField, Raw.ValueToString,
      ValueToString]
  | .mk key (.bool _), base, eb => by
    simp [Raw.ofAttr, Raw.populateEmbedField, populateEmbedField, Raw.ValueToString,
      ValueToString]
end

/-- What `logDiscord` does on a handler with a builder and a client, by what the builder
does: when it returns, its embed is sent in the one `CreateEmbeds` call; when it panics,
`logDiscord` panics and nothing is sent. -/
theorem raw_logDiscord_ready (rh : Raw.DiscordHandler) (record : Raw.Record)
    (f : Raw.BuildEmbed) (c : Client) (hb : rh.BuildEmbed = some f) (hc : rh.Client = some c) :
    (∀ embed, f record (rh.merged record) (rh.draft record) = some embed →
        (rh.logDiscord record).panicked = false ∧ (rh.logDiscord record).sent = [[embed]]) ∧
      (f record (rh.merged record) (rh.draft record) = none →
        (rh.logDiscord record).panicked = true ∧ (rh.logDiscord record).sent = []) := by
  constructor
  · intro embed he
    simp only [Raw.DiscordHandler.merged, Raw.DiscordHandler.draft] at he
    simp [Raw.DiscordHandler.logDiscord, hb, hc, he, Raw.Run.sent, Raw.Event.sent]
  · intro he
    simp only [Raw.DiscordHandler.merged, Raw.DiscordHandler.draft] at he
    simp [Raw.DiscordHandler.logDiscord, hb, he, Raw.Run.sent, Raw.Event.sent]

/-- On a handler with the default builder and a client and on a record of
`SlogDiscord.Record`, `logDiscord` in `Raw` does not panic and sends what `logDiscord`
sends. -/
theorem raw_logDiscord_ofHandler (h : DiscordHandler) (m : Mem) (record : Record) (c : Client)
    (hb : h.BuildEmbed = some defaultBuildEmbed) (hc : h.Client = some c) :
    ((Raw.ofHandler h m).logDiscord (Raw.ofRecord record)).panicked = false ∧
      ((Raw.ofHandler h m).logDiscord (Raw.ofRecord record)).sent =
        (h.logDiscord m record).sent := by
  have hattrs : Raw.RemoveEmptyAttrs
      (Raw.AppendRecordAttrsToAttrs (Raw.ofAttrs h.attrs) (h.groupNames m)
        (Raw.ofRecord record)) =
      Raw.ofAttrs (RemoveEmptyAttrs
        (AppendRecordAttrsToAttrs h.attrs (h.groupNames m) record)) := by
    rw [← raw_RemoveEmptyAttrs_ofAttrs]
    congr 1
    simp only [Raw.AppendRecordAttrsToAttrs, AppendRecordAttrsToAttrs, Raw.ofRecord,
      raw_ofAttrs_eq_map, List.map_append, List.map_map]
    congr 2
    funext a
    exact (raw_ofAttr_wrapInGroups (h.groupNames m) a).symm
  have hm : (Raw.ofHandler h m).merged (Raw.ofRecord record) =
      Raw.ofAttrs (RemoveEmptyAttrs
        (AppendRecordAttrsToAttrs h.attrs (h.groupNames m) record)) := hattrs
  have hbuild : Raw.defaultBuildEmbed (Raw.ofRecord record)
      ((Raw.ofHandler h m).merged (Raw.ofRecord record))
      ((Raw.ofHandler h m).draft (Raw.ofRecord record)) =
      some (defaultBuildEmbed record
        (RemoveEmptyAttrs (AppendRecordAttrsToAttrs h.attrs (h.groupNames m) record))
        (NewEmbedBuilder.SetColor (h.ColorMap.get record.Level))) := by
    rw [hm]
    simp only [Raw.defaultBuildEmbed, raw_populateEmbedFields_ofAttrs, Option.map_some',
      defaultBuildEmbed, Raw.ofRecord, Raw.DiscordHandler.draft, Raw.ofHandler]
  obtain ⟨h1, h2⟩ := (raw_logDiscord_ready (Raw.ofHandler h m) (Raw.ofRecord record)
    Raw.defaultBuildEmbed c rfl hc).1 _ hbuild
  refine ⟨h1, ?_⟩
  rw [h2, logDiscord_ready h m record defaultBuildEmbed c hb hc]
  rfl

/-- Whether every value renders, over two lists put together. -/
theorem raw_attrsRender_append (as bs : List Raw.Attr) :
    Raw.attrsRender (as ++ bs) = (Raw.attrsRender as && Raw.attrsRender bs) := by
  induction as with
  | nil => simp [Raw.attrsRender]
  | cons a rest ih => simp [Raw.attrsRender, ih, Bool.and_assoc]

/-- A part of a list all of whose values render is such a list. -/
theorem raw_attrsRender_filter (p : Raw.Attr → Bool) (as : List Raw.Attr)
    (h : Raw.attrsRender as = true) : Raw.attrsRender (as.filter p) = true := by
  induction as with
  | nil => simp [Raw.attrsRender]
  | cons a rest ih =>
    simp only [Raw.attrsRender, Bool.and_eq_true] at h
    cases hp : p a
    · simpa [List.filter_cons, hp] using ih h.2
    · simp [List.filter_cons, hp, Raw.attrsRender, h.1, ih h.2]

/-- Wrapping in groups adds no value that fails to render. -/
theorem raw_attrRenders_wrapInGroups (gs : List String) (a : Raw.Attr)
    (ha : Raw.attrRenders a = true) : Raw.attrRenders (Raw.wrapInGroups gs a) = true := by
  induction gs with
  | nil => simpa [Raw.wrapInGroups] using ha
  | cons g rest ih =>
    simp only [Raw.wrapInGroups, Raw.GroupValue, Raw.attrRenders]
    apply raw_attrsRender_filter
    simp [Raw.attrsRender, ih]

/-- The record's attributes under the groups render when they did before. -/
theorem raw_attrsRender_map_wrapInGroups (gs : List String) (as : List Raw.Attr)
    (h : Raw.attrsRender as = true) :
    Raw.attrsRender (as.map (Raw.wrapInGroups gs)) = true := by
  induction as with
  | nil => simp [Raw.attrsRender]
  | cons a rest ih =>
    simp only [Raw.attrsRender, Bool.and_eq_true] at h
    simp only [List.map_cons, Raw.attrsRender, Bool.and_eq_true]
    exact ⟨raw_attrRenders_wrapInGroups gs a h.1, ih h.2⟩

mutual
/-- What `RemoveEmptyAttrs` keeps renders when the list did. -/
theorem raw_attrsRender_RemoveEmptyAttrs : ∀ (as : List Raw.Attr),
    Raw.attrsRender as = true → Raw.attrsRender (Raw.RemoveEmptyAttrs as) = true
  | [], _ => by simp [Raw.RemoveEmptyAttrs, Raw.attrsRender]
  | a :: rest, h => by
    simp only [Raw.attrsRender, Bool.and_eq_true] at h
    have h1 := raw_attrRenders_RemoveEmptyAttr a h.1
    have h2 := raw_attrsRender_RemoveEmptyAttrs rest h.2
    rw [Raw.RemoveEmptyAttrs]
    cases hr : Raw.RemoveEmptyAttr a with
    | none => simpa using h2
    | some kept => simp [Raw.attrsRender, h1 kept hr, h2]
/-- The same for one attribute. -/
theorem raw_attrRenders_RemoveEmptyAttr : ∀ (a : Raw.Attr), Raw.attrRenders a = true →
    ∀ kept, Raw.RemoveEmptyAttr a = some kept → Raw.attrRenders kept = true
  | .mk key (.group as), h, kept, hk => by
    have ih := raw_attrsRender_RemoveEmptyAttrs as (by simpa [Raw.attrRenders] using h)
    rw [Raw.RemoveEmptyAttr] at hk
    split at hk
    · cases hk
    · split at hk
      · cases hk
      · cases hk
        simp only [Raw.GroupValue, Raw.attrRenders]
        exact raw_attrsRender_filter _ _ ih
  | .mk key .zero, h, kept, hk => by
    simp only [Raw.RemoveEmptyAttr] at hk
    split at hk
    · cases hk
    · split at hk
      · cases hk
      · cases hk
        exact h
  | .mk key (.string _), h, kept, hk => by
    simp only [Raw.RemoveEmptyAttr] at hk
    split at hk
    · cases hk
    · split at hk
      · cases hk
      · cases hk
        exact h
  | .mk key (.int64 _), h, kept, hk => by
    simp only [Raw.RemoveEmptyAttr] at hk
    split at hk
    · cases hk
    · split at hk
      · cases hk
      · cases hk
        exact h
  | .mk key (.bool _), h, kept, hk => by
    simp only [Raw.RemoveEmptyAttr] at hk
    split at hk
    · cases hk
    · split at hk
      · cases hk
      · cases hk
        exact h
  | .mk key (.any _ _), h, kept, hk => by
    simp only [Raw.RemoveEmptyAttr] at hk
    split at hk
    · cases hk
    · split at hk
      · cases hk
      · cases hk
        exact h
end

mutual
/-- The loop of the default builder returns on a list all of whose values render. -/
theorem raw_populateEmbedFields_isSome : ∀ (as : List Raw.Attr),
    Raw.attrsRender as = true → ∀ (base : String) (eb : EmbedBuilder),
      (Raw.populateEmbedFields base as eb).isSome = true
  | [], _, base, eb => by simp [Raw.populateEmbedFields]
  | a :: rest, h, base, eb => by
    simp only [Raw.attrsRender, Bool.and_eq_true] at h
    have h1 := raw_populateEmbedField_isSome a h.1 base eb
    rw [Raw.populateEmbedFields]
    cases hr : Raw.populateEmbedField base a eb with
    | none => rw [hr] at h1; cases h1
    | some eb1 => exact raw_populateEmbedFields_isSome rest h.2 base eb1
/-- The same for one attribute. -/
theorem raw_populateEmbedField_isSome : ∀ (a : Raw.Attr), Raw.attrRenders a = true →
    ∀ (base : String) (eb : EmbedBuilder), (Raw.populateEmbedField base a eb).isSome = true
  | .mk key (.group as), h, base, eb => by
    rw [Raw.populateEmbedField]
    exact raw_populateEmbedFields_isSome as (by simpa [Raw.attrRenders] using h) _ eb
  | .mk key .zero, _, base, eb => by simp [Raw.populateEmbedField, Raw.ValueToString]
  | .mk key (.string _), _, base, eb => by simp [Raw.populateEmbedField, Raw.ValueToString]
  | .mk key (.int64 _), _, base, eb => by simp [Raw.populateEmbedField, Raw.ValueToString]
  | .mk key (.bool _), _, base, eb => by simp [Raw.populateEmbedField, Raw.ValueToString]
  | .mk key (.any _ text), h, base, eb => by
    cases text with
    | none => simp [Raw.attrRenders] at h
    | some t => simp [Raw.populateEmbedField, Raw.ValueToString]
end

/-- The default builder returns on the attributes `logDiscord` hands it when every value
of the handler and of the record renders. -/
theorem raw_defaultBuildEmbed_isSome (rh : Raw.DiscordHandler) (record : Raw.Record)
    (ha : Raw.attrsRender rh.attrs = true) (hr : Raw.attrsRender record.attrs = true) :
    (Raw.defaultBuildEmbed record (rh.merged record) (rh.draft record)).isSome = true := by
  have hm : Raw.attrsRender (rh.merged record) = true := by
    apply raw_attrsRender_RemoveEmptyAttrs
    rw [Raw.AppendRecordAttrsToAttrs, raw_attrsRender_append, ha,
      raw_attrsRender_map_wrapInGroups rh.groups record.attrs hr]
    rfl
  simp only [Raw.defaultBuildEmbed, Option.isSome_map']
  exact raw_populateEmbedFields_isSome _ hm _ _

/-- C17, as stated, fails: the handler `NewDiscordHandler` returns holds a client and the
default builder, and on a record with an attribute of kind Any holding a nil
`*time.Time` the rendering in `populateEmbedFields` panics, so `logDiscord` ends in the
panic after the builder call and `CreateEmbeds` is never called. -/
theorem nil_time_attribute_panics_before_send :
    (newHandler (fixedClient none) [WithSyncMode true]).BuildEmbed = some defaultBuildEmbed ∧
      (Raw.ofHandler (newHandler (fixedClient none) [WithSyncMode true]) syncHeap).Client.isSome =
        true ∧
      (Raw.ofHandler (newHandler (fixedClient none) [WithSyncMode true]) syncHeap).BuildEmbed.isSome =
        true ∧
      ((Raw.ofHandler (newHandler (fixedClient none) [WithSyncMode true]) syncHeap).logDiscord
        Raw.nilTimeRecord).panicked = true ∧
      ((Raw.ofHandler (newHandler (fixedClient none) [WithSyncMode true]) syncHeap).logDiscord
        Raw.nilTimeRecord).sent = [] ∧
      ((Raw.ofHandler (newHandler (fixedClient none) [WithSyncMode true]) syncHeap).logDiscord
        Raw.nilTimeRecord).events.length = 1 :=
  ⟨rfl, by decide⟩

/-- C17, amended. On a handler holding a builder and a client, building and sending is
total wherever the builder returns: for every record and every color map (nil and empty
ones too, the lookup cannot fail) `logDiscord` then does not panic and sends the
builder's embed in its one `CreateEmbeds` call; where the builder panics, `logDiscord`
panics and sends nothing. The default builder returns whenever the rendering of every
attribute value of the handler and of the record returns, which covers a record without
attributes, and every record of `SlogDiscord.Record`, on which the run sends what
`SlogDiscord.DiscordHandler.logDiscord` sends. Every handler returned by
`NewDiscordHandler` when no option passes a nil builder, and every handler reachable
from it by chaining, holds a builder and a client. -/
theorem build_and_send_total_where_builder_returns (rh : Raw.DiscordHandler)
    (record : Raw.Record) (f : Raw.BuildEmbed) (c : Client) (hb : rh.BuildEmbed = some f)
    (hc : rh.Client = some c) :
    (∀ embed, f record (rh.merged record) (rh.draft record) = some embed →
        (rh.logDiscord record).panicked = false ∧ (rh.logDiscord record).sent = [[embed]]) ∧
      (f record (rh.merged record) (rh.draft record) = none →
        (rh.logDiscord record).panicked = true ∧ (rh.logDiscord record).sent = []) ∧
      (f = Raw.defaultBuildEmbed → Raw.attrsRender rh.attrs = true →
        Raw.attrsRender record.attrs = true →
        (rh.logDiscord record).panicked = false ∧ (rh.logDiscord record).sent.length = 1) ∧
      (∀ (h : DiscordHandler) (m : Mem) (r : Record) (c0 : Client),
        h.BuildEmbed = some defaultBuildEmbed → h.Client = some c0 →
        ((Raw.ofHandler h m).logDiscord (Raw.ofRecord r)).panicked = false ∧
          ((Raw.ofHandler h m).logDiscord (Raw.ofRecord r)).sent = (h.logDiscord m r).sent) ∧
      (∀ (newWithURL : NewWithURL) (m0 : Mem) (webhookURL : String) (opts : List Opt)
          (m1 : Mem) (p0 : Ptr) (h0 nh : DiscordHandler),
        (∀ o ∈ opts, o.buildEmbed? ≠ some none) →
        NewDiscordHandler newWithURL m0 webhookURL (opts.map Opt.fn) = (m1, .ok p0) →
        m1.objs.get? p0 = some h0 → Derived h0 nh →
        nh.BuildEmbed.isSome = true ∧ nh.Client.isSome = true) := by
  have hrun := raw_logDiscord_ready rh record f c hb hc
  refine ⟨hrun.1, hrun.2, ?_, ?_, ?_⟩
  · intro hf ha hr
    have hsome := raw_defaultBuildEmbed_isSome rh record ha hr
    rw [← hf] at hsome
    obtain ⟨embed, he⟩ := Option.isSome_iff_exists.mp hsome
    obtain ⟨h1, h2⟩ := hrun.1 embed he
    exact ⟨h1, by rw [h2]; rfl⟩
  · intro h m r c0 hb0 hc0
    exact raw_logDiscord_ofHandler h m r c0 hb0 hc0
  · intro newWithURL m0 webhookURL opts m1 p0 h0 nh hopts hnew h0p hd
    exact derived_holds_builder_and_client newWithURL m0 webhookURL opts m1 p0 h0 nh hopts
      hnew h0p hd

/-- C17, amended, at a handler with a nil color map and no groups: for a record without
attributes but one of kind Any that renders (a `*time.Time` that is not nil),
`logDiscord` does not panic and sends one embed. -/
theorem build_and_send_total_where_builder_returns_witness :
    ((Raw.ofHandler (newHandler (fixedClient none) [WithSyncMode true, WithColorMap none])
        (newHeap (fixedClient none) [WithSyncMode true, WithColorMap none])).logDiscord
        { Time := 1700000000, Message := "an error occurred", Level := LevelInfo,
          attrs := [.mk "t" (.any "2023-11-14 22:13:20 +0000 UTC" (some "2023-11-14T22:13:20Z"))] }).panicked =
        false ∧
      ((Raw.ofHandler (newHandler (fixedClient none) [WithSyncMode true, WithColorMap none])
        (newHeap (fixedClient none) [WithSyncMode true, WithColorMap none])).logDiscord
        { Time := 1700000000, Message := "an error occurred", Level := LevelInfo,
          attrs := [.mk "t" (.any "2023-11-14 22:13:20 +0000 UTC" (some "2023-11-14T22:13:20Z"))] }).sent.length =
        1 :=
  (build_and_send_total_where_builder_returns
    (Raw.ofHandler (newHandler (fixedClient none) [WithSyncMode true, WithColorMap none])
      (newHeap (fixedClient none) [WithSyncMode true, WithColorMap none]))
    { Time := 1700000000, Message := "an error occurred", Level := LevelInfo,
      attrs := [.mk "t" (.any "2023-11-14 22:13:20 +0000 UTC" (some "2023-11-14T22:13:20Z"))] }
    Raw.defaultBuildEmbed (fixedClient none) rfl rfl).2.2.1 rfl (by decide) (by decide)

/-- C18. Field names are not unique. The attribute list of a scalar keyed `a.b` and a
group `a` holding a scalar `b` has two leaves on different paths; the default builder
gives both the name `a.b` and keeps both fields, for every record and draft, and the
handler sends both. The naming of paths by dotted keys is not injective. -/
theorem field_names_not_unique (record : Record) (eb : EmbedBuilder) :
    ((leaves [.mk "a.b" (.string "x"), .mk "a" (.group [.mk "b" (.string "y")])]).map
        Prod.fst = [["a.b"], ["a", "b"]]) ∧
      ((defaultBuildEmbed record
          [.mk "a.b" (.string "x"), .mk "a" (.group [.mk "b" (.string "y")])] eb).Fields =
        eb.Fields ++ [{ Name := "a.b", Value := "x", Inline := some false },
          { Name := "a.b", Value := "y", Inline := some false }]) ∧
      (fieldNamesAt syncHeap 0 (exampleRecord LevelInfo
          [.mk "a.b" (.string "x"), .mk "a" (.group [.mk "b" (.string "y")])]) =
        some [["a.b", "a.b"]]) ∧
      ¬ Function.Injective dotted := by
  refine ⟨by decide, ?_, by decide, ?_⟩
  · rw [fields_of_defaultBuildEmbed]
    congr 1
  · intro hinj
    have h : dotted ["a.b"] = dotted ["a", "b"] := by decide
    exact absurd (hinj h) (by decide)

/-- An `append` that has to grow leaves every allocated backing array as it is. -/
theorem readSlice_goAppend_grow (arrays : List (List String)) (s t : StrSlice) (x : String)
    (hfull : ¬ s.len < s.cap) (ht : t.arr < arrays.length) :
    readSlice (goAppend arrays s x).1 t = readSlice arrays t := by
  simp only [goAppend, if_neg hfull, readSlice, List.getD_eq_getElem?_getD]
  rw [List.getElem?_append_left ht]

/-- Siblings stay apart when the receiver's slice is full (length equal to capacity, as
after zero, one, two or four `WithGroup` calls in a row): `h1 = h.WithGroup(a)` reads
`g ++ [a]` when returned and still does after `h2 = h.WithGroup(b)`, which reads
`g ++ [b]`. -/
theorem withGroup_siblings_apart_when_full (m : Mem) (p : Ptr) (h : DiscordHandler)
    (a b : String) (hwf : m.WF) (hp : m.objs.get? p = some h) (ha : a ≠ "") (hb : b ≠ "")
    (hfull : h.groups.len = h.groups.cap) :
    ∃ r1 r2, WithGroup m p a = some r1 ∧ WithGroup r1.mem p b = some r2 ∧
      groupNamesAt r1.mem r1.ptr = some (h.groupNames m ++ [a]) ∧
      groupNamesAt r2.mem r1.ptr = some (h.groupNames m ++ [a]) ∧
      groupNamesAt r2.mem r2.ptr = some (h.groupNames m ++ [b]) := by
  have hok : SliceOK m.arrays h.groups := hwf h (mem_objs_of_get hp)
  have hnlt : ¬ h.groups.len < h.groups.cap := by omega
  obtain ⟨r1, nh1, hr1, hg1, _, _, hf1, _⟩ := WithGroup_spec m p h a hp ha
  have hr1e := WithGroup_eq m p h a hp ha
  rw [hr1] at hr1e
  simp only [Option.some.injEq] at hr1e
  have hp1 : r1.mem.objs.get? p = some h := hf1 p h hp
  obtain ⟨r2, nh2, hr2, hg2, _, _, hf2, _⟩ := WithGroup_spec r1.mem p h b hp1 hb
  have hr2e := WithGroup_eq r1.mem p h b hp1 hb
  rw [hr2] at hr2e
  simp only [Option.some.injEq] at hr2e
  have harr1 : r1.mem.arrays = (goAppend m.arrays h.groups a).1 := by rw [hr1e]
  have hnh1 : nh1.groups = (goAppend m.arrays h.groups a).2 := by
    rw [hr1e] at hg1
    simp only [List.get?_eq_getElem?, List.getElem?_concat_length, Option.some.injEq] at hg1
    rw [← hg1]
  have harr2 : r2.mem.arrays = (goAppend r1.mem.arrays h.groups b).1 := by rw [hr2e]
  have hnh2 : nh2.groups = (goAppend r1.mem.arrays h.groups b).2 := by
    rw [hr2e] at hg2
    simp only [List.get?_eq_getElem?, List.getElem?_concat_length, Option.some.injEq] at hg2
    rw [← hg2]
  have hok1 : SliceOK r1.mem.arrays h.groups := by
    rw [harr1]
    exact SliceOK_goAppend_other m.arrays h.groups h.groups a hok
  have hread1 : readSlice r1.mem.arrays nh1.groups = h.groupNames m ++ [a] := by
    rw [harr1, hnh1]
    exact readSlice_goAppend m.arrays h.groups a hok
  have hidx : nh1.groups.arr < r1.mem.arrays.length := by
    rw [harr1, hnh1]
    simp [goAppend, hnlt]
  refine ⟨r1, r2, hr1, hr2, ?_, ?_, ?_⟩
  · rw [groupNamesAt, hg1, Option.map_some', DiscordHandler.groupNames, hread1]
  · rw [groupNamesAt, hf2 r1.ptr nh1 hg1, Option.map_some', DiscordHandler.groupNames, harr2,
      readSlice_goAppend_grow r1.mem.arrays h.groups nh1.groups b hnlt hidx, hread1]
  · rw [groupNamesAt, hg2, Option.map_some', DiscordHandler.groupNames, harr2, hnh2,
      readSlice_goAppend r1.mem.arrays h.groups b hok1, harr1,
      readSlice_goAppend_frame m.arrays h.groups a hok]
    rfl

end SlogDiscord
